import Mathlib

set_option maxRecDepth 8192

/-!
Shallow embedding of the update tooling of this repository:

* the version-ordering library (`parseVersion`, `compareVersions`, `shouldUpdate`);
* candidate discovery (`discoverPackages`, `discoverFlakeInputs`);
* the per-item update pipeline (`runPipeline`), covering precondition check,
  updater delegation, diff checks, version resolution, validation, scope check,
  commit/push and idempotent publish.

JavaScript strings are modelled as `List Char` (well-formed UTF-16 text).
JavaScript string comparison (`a < b`) compares UTF-16 code units, so the
order is taken over the UTF-16 encoding of the character list.  JavaScript
numbers produced by `Number(part)` on the version components are modelled as
exact natural numbers (components contain no sign and no decimal point; the
model ignores IEEE-754 rounding of astronomically large integer literals and
approximates the overflow-to-Infinity threshold by `2 ^ 1024`).
-/

/-- A JavaScript string: a list of unicode scalar values. -/
abbrev Str := List Char

/-- The UTF-16 code units of one character (one unit for the BMP, a surrogate
pair for the astral planes). -/
def u16 (c : Char) : List Nat :=
  let n := c.toNat
  if n < 0x10000 then [n]
  else [0xD800 + (n - 0x10000) / 0x400, 0xDC00 + (n - 0x10000) % 0x400]

/-- UTF-16 code units of a string. -/
def utf16 : Str → List Nat
  | [] => []
  | c :: cs => u16 c ++ utf16 cs

/-- Lexicographic strict order on code-unit lists, as JavaScript compares
strings with `<`. -/
def lexLt : List Nat → List Nat → Bool
  | [], [] => false
  | [], _ :: _ => true
  | _ :: _, [] => false
  | a :: as, b :: bs => if a < b then true else if b < a then false else lexLt as bs

/-- JavaScript `a < b` on strings. -/
def jsLt (a b : Str) : Bool := lexLt (utf16 a) (utf16 b)

/-! ## Version ordering (`scripts/updater/version.ts`)

Translation of `parseVersion`, `compareVersions` and `shouldUpdate`.  The
JavaScript `split(sep, 2)` computes the full split and keeps the first two
fields, so the translation uses the full split and reads fields 0 and 1.
-/

/-- Whitespace characters stripped by JavaScript `Number()` conversion. -/
def isWsChar (c : Char) : Bool :=
  c = ' ' || c = '\t' || c = '\n' || c = '\r' || c = '\x0b' || c = '\x0c' || c = ' '

/-- Strip leading and trailing whitespace, as `Number()` does. -/
def trimWs (s : Str) : Str :=
  ((s.dropWhile isWsChar).reverse.dropWhile isWsChar).reverse

/-- JavaScript `String.prototype.trim()`, over the character list (the
whitespace set is shared with `Number()` conversion). -/
def jsTrim (s : String) : String := String.mk (trimWs s.data)

/-- JavaScript `s.startsWith(pre)`. -/
def strStartsWith (s pre : String) : Bool := pre.data.isPrefixOf s.data

/-- Split at every character satisfying the test (used for `/\s+/` splits;
consecutive separators produce empty fields, which the callers filter out). -/
def splitPred (p : Char → Bool) : Str → List Str
  | [] => [[]]
  | c :: cs =>
    if p c then [] :: splitPred p cs
    else
      match splitPred p cs with
      | [] => [[c]]
      | h :: t => (c :: h) :: t

def isHexDigitCh (c : Char) : Bool :=
  c.isDigit || ('a' ≤ c && c ≤ 'f') || ('A' ≤ c && c ≤ 'F')

def isOctDigitCh (c : Char) : Bool := '0' ≤ c && c ≤ '7'

def isBinDigitCh (c : Char) : Bool := c = '0' || c = '1'

def digitVal (c : Char) : Nat :=
  if c.isDigit then c.toNat - '0'.toNat
  else if 'a' ≤ c && c ≤ 'f' then c.toNat - 'a'.toNat + 10
  else c.toNat - 'A'.toNat + 10

def digitsVal (base : Nat) (l : Str) : Nat :=
  l.foldl (fun acc c => acc * base + digitVal c) 0

/-- Values at least this large overflow an IEEE-754 double to `Infinity`,
making `Number.isInteger` false.  The exact rounding threshold is a hair
below `2 ^ 1024`; the difference is unobservable for version components. -/
def jsOverflowBound : Nat := 2 ^ 1024

def finiteNat (n : Nat) : Option Nat := if n < jsOverflowBound then some n else none

def radixParse (base : Nat) (ok : Char → Bool) (ds : Str) : Option Nat :=
  if ds ≠ [] ∧ ds.all ok then finiteNat (digitsVal base ds) else none

/-- Model of `Number(part)` followed by the `Number.isInteger` test, for the
dot-separated components of a version's numeric segment.  Those components
never contain `+`, `-` or `.` (the first `+` was rewritten to `-`, the string
was split at `-` and then at `.`), so the relevant grammar is: empty string
(zero), decimal digits, `0x`/`0o`/`0b` radix literals, and decimal digits with
a decimal exponent.  Anything else (including `Infinity`) is not an integer
and yields `none`, exactly as `Number.isNaN` marks the component. -/
def jsNumberNat (s : Str) : Option Nat :=
  let t := trimWs s
  if t = [] then some 0
  else if t.take 2 = ['0', 'x'] ∨ t.take 2 = ['0', 'X'] then
    radixParse 16 isHexDigitCh (t.drop 2)
  else if t.take 2 = ['0', 'o'] ∨ t.take 2 = ['0', 'O'] then
    radixParse 8 isOctDigitCh (t.drop 2)
  else if t.take 2 = ['0', 'b'] ∨ t.take 2 = ['0', 'B'] then
    radixParse 2 isBinDigitCh (t.drop 2)
  else
    let mant := t.takeWhile Char.isDigit
    let rest := t.dropWhile Char.isDigit
    if mant = [] then none
    else
      match rest with
      | [] => finiteNat (digitsVal 10 mant)
      | e :: ex =>
        if (e = 'e' ∨ e = 'E') ∧ ex ≠ [] ∧ ex.all Char.isDigit then
          finiteNat (digitsVal 10 mant * 10 ^ digitsVal 10 ex)
        else none

structure ParsedVersion where
  numericParts : Option (List Nat)
  suffix : Str
deriving DecidableEq, Repr

/-- JavaScript `version.startsWith("v") ? version.slice(1) : version`. -/
def stripLeadingV : Str → Str
  | [] => []
  | c :: rest => if c = 'v' then rest else c :: rest

/-- JavaScript `normalized.replace("+", "-")`: only the first occurrence is
replaced when the pattern is a plain string. -/
def replaceFirstPlus : Str → Str
  | [] => []
  | c :: cs => if c = '+' then '-' :: cs else c :: replaceFirstPlus cs

/-- JavaScript `s.split(sep)` for a single-character separator. -/
def splitChar (sep : Char) : Str → List Str
  | [] => [[]]
  | c :: cs =>
    if c = sep then [] :: splitChar sep cs
    else
      match splitChar sep cs with
      | [] => [[c]]
      | h :: t => (c :: h) :: t

def parseVersion (version : Str) : ParsedVersion :=
  let normalized := stripLeadingV version
  -- `normalized.replace("+", "-").split("-", 2)`: fields 0 and 1 of the split
  let parts := splitChar '-' (replaceFirstPlus normalized)
  let numericStr := parts.getD 0 []
  let suffix := parts.getD 1 []
  if numericStr = [] then ⟨none, suffix⟩
  else
    let numericParts := (splitChar '.' numericStr).map jsNumberNat
    if numericParts.any Option.isNone then ⟨none, suffix⟩
    else ⟨some (numericParts.map (fun o => o.getD 0)), suffix⟩

/-- Body of the `for (let i = 0; i < max; i += 1)` comparison loop of
`compareVersions`, with the remaining iteration count as fuel.  The
fall-through of the loop (all positions equal) is the value `0`. -/
def cmpIdxGo : Nat → List Nat → List Nat → Nat → Int
  | 0, _, _, _ => 0
  | fuel + 1, a, b, i =>
    let aPart := a.getD i 0
    let bPart := b.getD i 0
    if aPart < bPart then -1
    else if bPart < aPart then 1
    else cmpIdxGo fuel a b (i + 1)

/-- The numeric-part comparison loop of `compareVersions`: `max` iterations
from index 0, missing entries read as 0. -/
def cmpIdx (a b : List Nat) : Int :=
  cmpIdxGo (max a.length b.length) a b 0

/-- The suffix comparison at the end of `compareVersions`: equal suffixes tie,
an empty suffix ranks after any non-empty one, two non-empty suffixes compare
as JavaScript strings. -/
def sfxCmp (sa sb : Str) : Int :=
  if sa = sb then 0
  else if sa = [] then 1
  else if sb = [] then -1
  else if jsLt sa sb then -1 else 1

def compareVersions (a b : Str) : Int :=
  if a = b then 0
  else
    let parsedA := parseVersion a
    let parsedB := parseVersion b
    match parsedA.numericParts, parsedB.numericParts with
    | some na, some nb =>
      let numCmp := cmpIdx na nb
      if numCmp = 0 then sfxCmp parsedA.suffix parsedB.suffix else numCmp
    | _, _ => if jsLt a b then -1 else 1

def shouldUpdate (current latest : Str) : Bool :=
  compareVersions current latest < 0

/-- Convenience injection of Lean string literals into the model. -/
def strOf (s : String) : Str := s.data

/-- Comparison of the zero padding against the remaining entries of the
longer list: negative as soon as some entry is positive. -/
def cmpZeros : List Nat → Int
  | [] => 0
  | b :: bs => if 0 < b then -1 else cmpZeros bs

/-- Spec-side reformulation of the numeric comparison: compare the two part
lists position by position, extending the shorter one with zeros. -/
def cmpPad : List Nat → List Nat → Int
  | [], bs => cmpZeros bs
  | a :: as, [] => if 0 < a then 1 else cmpPad as []
  | a :: as, b :: bs => if a < b then -1 else if b < a then 1 else cmpPad as bs

/-! ## External JSON values

Parsed JSON as the scripts see it (`JSON.parse` output).  Numbers are modelled
as integers: the lock-state and package-index documents the scripts read carry
no fractional numbers.
-/

inductive Json where
  | null
  | bool (b : Bool)
  | num (n : Int)
  | str (s : String)
  | arr (elems : List Json)
  | obj (fields : List (String × Json))

/-- JavaScript property access / indexing `j[k]` for the value shapes that can
occur here: object field lookup, array indexing by a canonical numeric string,
string indexing (one-character string), `undefined` (`none`) otherwise. -/
def jsIndexStr (j : Json) (k : String) : Option Json :=
  match j with
  | .obj fs => fs.lookup k
  | .arr xs =>
    match k.toNat? with
    | some i => if toString i = k then (xs.get? i) else none
    | none => none
  | .str s =>
    match k.toNat? with
    | some i =>
      if toString i = k then (s.data.get? i).map (fun c => Json.str (String.mk [c])) else none
    | none => none
  | _ => none

/-- JavaScript falsiness of a possibly-undefined JSON value (`NaN` cannot
arise from `JSON.parse`). -/
def jsFalsy : Option Json → Bool
  | none => true
  | some .null => true
  | some (.bool b) => !b
  | some (.num n) => n = 0
  | some (.str s) => s = ""
  | some (.arr _) => false
  | some (.obj _) => false

/-- JavaScript `s.slice(0, 8)`: the first 8 UTF-16 code units.  Lock revisions
are ASCII hexadecimal, for which code units and characters coincide. -/
def jsSlice8 (s : String) : String := String.mk (s.data.take 8)

/-! ## The update pipeline (`scripts/updater/updateItem.ts`) -/

inductive UpdateType where
  | package
  | flakeInput
deriving DecidableEq, Repr

/-- Translation of `readFlakeInputRev`: read `flake.lock`, then
`assertRecord` the document, its `nodes`, the node and its `locked` (each
assertion failure throws, aborting the run); a missing node, `locked` or
non-string/empty `rev` yields `"unknown"`.  `none` stands for an unreadable
file or a `JSON.parse` failure, both of which throw.  The thrown message is
the assertion context followed by `": expected object"`. -/
def readFlakeInputRev (name : String) (lockDoc : Option Json) : Except String String :=
  match lockDoc with
  | none => .error "flake.lock: unreadable or invalid JSON"
  | some lockData =>
    match lockData with
    | .obj lockFields =>
      match lockFields.lookup "nodes" with
      | some (.obj nodeFields) =>
        match nodeFields.lookup name with
        | none => .ok "unknown"
        | some .null => .ok "unknown"
        | some (.obj nodeObj) =>
          match nodeObj.lookup "locked" with
          | none => .ok "unknown"
          | some .null => .ok "unknown"
          | some (.obj lockedObj) =>
            match lockedObj.lookup "rev" with
            | some (.str rev) => if rev = "" then .ok "unknown" else .ok (jsSlice8 rev)
            | _ => .ok "unknown"
          | some _ => .error ("flake.lock.nodes." ++ name ++ ".locked: expected object: expected object")
        | some _ => .error ("flake.lock.nodes." ++ name ++ ": expected object: expected object")
      | _ => .error "flake.lock.nodes: expected object: expected object"
    | _ => .error "flake.lock: expected object: expected object"

/-- Translation of `nixEvalPackageVersion`: a non-zero exit or blank output
resolves to the sentinel `"unknown"`; never an error. -/
def nixEvalPackageVersion (exitCode : Nat) (stdout : String) : String :=
  if exitCode ≠ 0 then "unknown"
  else if jsTrim stdout = "" then "unknown"
  else jsTrim stdout

/-- The working tree as the pipeline's git queries observe it: paths of
tracked files with unstaged modifications, and untracked (not ignored)
paths.  `git status --porcelain` prints one line per path of either list;
`git diff --quiet` and `git diff --name-only` consult only the tracked
modifications; `git ls-files --others --exclude-standard` lists the
untracked paths. -/
structure WorkTree where
  changed : List String
  untracked : List String
deriving DecidableEq, Repr

/-- The clean-tree precondition test `status.trim()`: truthy exactly when
some modified or untracked path exists. -/
def porcelainDirty (t : WorkTree) : Bool :=
  !t.changed.isEmpty || !t.untracked.isEmpty

/-- Translation of `trimLines` (`scripts/updater/command.ts`), applied to
captured output already split into lines. -/
def trimLines (ls : List String) : List String :=
  (ls.map jsTrim).filter (fun l => l ≠ "")

/-- JavaScript `Array.from(new Set(xs))`: deduplication keeping the first
occurrence, in insertion order. -/
def jsDedupGo : List String → List String → List String
  | _, [] => []
  | seen, x :: xs => if x ∈ seen then jsDedupGo seen xs else x :: jsDedupGo (x :: seen) xs

def jsDedup (l : List String) : List String := jsDedupGo [] l

/-- JavaScript default `Array.prototype.sort()` on strings: ascending in the
UTF-16 code-unit order. -/
def jsLtStr (a b : String) : Bool := jsLt a.data b.data

def jsLeStr (a b : String) : Prop := jsLtStr b a = false

instance : DecidableRel jsLeStr := fun a b => by
  unfold jsLeStr
  infer_instance

def jsSortStrs (l : List String) : List String := l.insertionSort jsLeStr

/-- The scope-check enumeration: deduplicated, sorted union of the changed
and untracked paths (`Array.from(new Set([...changedFiles, ...untrackedFiles])).sort()`). -/
def enumerateChanges (t : WorkTree) : List String :=
  jsSortStrs (jsDedup (trimLines t.changed ++ trimLines t.untracked))

/-- Translation of `isAllowedChange`. -/
def isAllowedChange (t : UpdateType) (name file : String) : Bool :=
  match t with
  | .package =>
    if file = "README.md" then true
    else strStartsWith file ("packages/" ++ name ++ "/")
  | .flakeInput => file = "flake.lock" || file = "README.md"

/-- The deterministic branch for an item. -/
def branchName : UpdateType → String → String
  | .package, name => "update/" ++ name
  | .flakeInput, name => "update/flake-input/" ++ name

def prTitle (t : UpdateType) (name currentVersion newVersion : String) : String :=
  match t with
  | .package => name ++ ": " ++ currentVersion ++ " -> " ++ newVersion
  | .flakeInput => "flake.lock: Update " ++ name

def prBody (t : UpdateType) (name currentVersion newVersion : String) : String :=
  match t with
  | .package =>
    "Automated update of " ++ name ++ " from " ++ currentVersion ++ " to " ++ newVersion ++ "."
  | .flakeInput =>
    "This PR updates the flake input `" ++ name ++ "`.\n\n- " ++ name ++ ": `"
      ++ currentVersion ++ "` → `" ++ newVersion ++ "`"

/-- Translation of `splitLabels`. -/
def splitLabels (labels : String) : List String :=
  (((splitChar ',' labels.data).map (fun l => jsTrim (String.mk l)))).filter (fun l => l ≠ "")

/-- An open review proposal, as the proposal system tracks it. -/
structure Pr where
  branch : String
  number : Nat
  title : String
  body : String
deriving DecidableEq, Repr

/-- Translation of `ghPrNumberForBranch`: `gh pr list --head <branch> --json
number` returns the open proposals whose head is `branch`; the code reads
element 0's `number`, `null` when the list is empty. -/
def ghPrNumberForBranch (store : List Pr) (branch : String) : Option Nat :=
  match store.filter (fun p => p.branch = branch) with
  | [] => none
  | p :: _ => some p.number

/-- Effect of `gh pr edit <n> --title --body`: the proposal numbered `n` gets
the new title and body (its branch is unchanged). -/
def editPr (store : List Pr) (n : Nat) (title body : String) : List Pr :=
  store.map (fun p => if p.number = n then Pr.mk p.branch p.number title body else p)

/-- The externally visible mutating commands of the commit/publish phase. -/
inductive ExtAction where
  | gitSwitch (branch : String)
  | gitAdd (paths : List String)
  | gitCommit (message : String)
  | gitPush (branch : String)
  | prCreate (number : Nat) (title body : String) (labels : List String)
  | prEdit (number : Nat) (title body : String) (labels : List String)
  | autoMergeReq (number : Nat)
deriving DecidableEq, Repr

inductive RunResult where
  | configError
  | dirtyTree
  | updaterFailed
  | noChanges
  | docsFailed
  | fmtFailed
  | noChangesAfterFormat
  | versionError (msg : String)
  | validationFailed
  | emptyChanges
  | scopeViolation (file : String)
  | switchFailed
  | addFailed
  | nothingStaged
  | commitFailed
  | pushFailed
  | prListFailed
  | publishEditFailed
  | publishCreateFailed
  | success (branch title body : String) (prNumber : Option Nat)
deriving DecidableEq, Repr

structure RunOut where
  result : RunResult
  actions : List ExtAction
  prs : List Pr
deriving DecidableEq, Repr

/-- Results of the external collaborators of one pipeline run, in invocation
order: `tree1`/`tree2`/`tree3` are the working tree after the updater, the
README regeneration and `nix fmt` respectively; the `Ok` flags are the exit
statuses of the checked commands; `lockDoc` is the parsed `flake.lock` at
version-resolution time. -/
structure World where
  ghToken : String
  tree0 : WorkTree
  updaterOk : Bool
  tree1 : WorkTree
  docsOk : Bool
  tree2 : WorkTree
  fmtOk : Bool
  tree3 : WorkTree
  nixEvalCode : Nat
  nixEvalOut : String
  lockDoc : Option Json
  validationOk : Bool
  switchOk : Bool
  addOk : Bool
  stagedNonempty : Bool
  commitOk : Bool
  pushOk : Bool
  prListOk : Bool
  prEditOk : Bool
  prCreateOk : Bool
  nextPrNumber : Nat
  mergeOk : Bool
  prLabels : String
  autoMerge : String

/-- The `VersionResolved` step: `nixEvalPackageVersion` for packages,
`readFlakeInputRev` for pinned references. -/
def resolveVersion (t : UpdateType) (name : String) (w : World) : Except String String :=
  match t with
  | .package => .ok (nixEvalPackageVersion w.nixEvalCode w.nixEvalOut)
  | .flakeInput => readFlakeInputRev name w.lockDoc

/-- The optional auto-merge request at the end of a run: a failure is caught
and only logged, the run still succeeds. -/
def autoMergePhase (branch title body : String) (n : Option Nat) (w : World)
    (store : List Pr) (acts : List ExtAction) : RunOut :=
  if w.autoMerge = "true" then
    match n with
    | some k =>
      if w.mergeOk then ⟨.success branch title body n, acts ++ [ExtAction.autoMergeReq k], store⟩
      else ⟨.success branch title body n, acts, store⟩
    | none => ⟨.success branch title body n, acts, store⟩
  else ⟨.success branch title body n, acts, store⟩

/-- The `Published` step: look up an existing open proposal for the branch;
edit it in place when found, create one otherwise (and re-query its number). -/
def publishPhase (branch title body : String) (labels : List String) (w : World)
    (store : List Pr) (acts : List ExtAction) : RunOut :=
  if !w.prListOk then ⟨.prListFailed, acts, store⟩
  else
    match ghPrNumberForBranch store branch with
    | some n =>
      if !w.prEditOk then ⟨.publishEditFailed, acts, store⟩
      else
        autoMergePhase branch title body (some n) w (editPr store n title body)
          (acts ++ [ExtAction.prEdit n title body labels])
    | none =>
      if !w.prCreateOk then ⟨.publishCreateFailed, acts, store⟩
      else
        let store2 := store ++ [Pr.mk branch w.nextPrNumber title body]
        autoMergePhase branch title body (ghPrNumberForBranch store2 branch) w store2
          (acts ++ [ExtAction.prCreate w.nextPrNumber title body labels])

/-- The staged paths of the `Committed` step, per item kind. -/
def addPathsFor : UpdateType → String → List String
  | .package, name => ["packages/" ++ name, "README.md"]
  | .flakeInput, _ => ["flake.lock", "README.md"]

/-- The `Committed` step: switch to the branch, stage the allow-listed paths,
require a non-empty stage, commit with the title as message, force-push. -/
def commitPhase (t : UpdateType) (name branch title body : String) (labels : List String)
    (w : World) (store : List Pr) : RunOut :=
  if !w.switchOk then ⟨.switchFailed, [], store⟩
  else
    let addPaths := addPathsFor t name
    let acts0 := [ExtAction.gitSwitch branch]
    if !w.addOk then ⟨.addFailed, acts0, store⟩
    else
      let acts1 := acts0 ++ [ExtAction.gitAdd addPaths]
      if !w.stagedNonempty then ⟨.nothingStaged, acts1, store⟩
      else if !w.commitOk then ⟨.commitFailed, acts1, store⟩
      else
        let acts2 := acts1 ++ [ExtAction.gitCommit title]
        if !w.pushOk then ⟨.pushFailed, acts2, store⟩
        else publishPhase branch title body labels w store (acts2 ++ [ExtAction.gitPush branch])

/-- Translation of `main` of `updateItem.ts`, for one item against one
working tree and one proposal store. -/
def runPipeline (t : UpdateType) (name currentVersion : String) (w : World)
    (store : List Pr) : RunOut :=
  if w.ghToken = "" then ⟨.configError, [], store⟩
  else if porcelainDirty w.tree0 then ⟨.dirtyTree, [], store⟩
  else if !w.updaterOk then ⟨.updaterFailed, [], store⟩
  else if w.tree1.changed.isEmpty then ⟨.noChanges, [], store⟩
  else if !w.docsOk then ⟨.docsFailed, [], store⟩
  else if !w.fmtOk then ⟨.fmtFailed, [], store⟩
  else if w.tree3.changed.isEmpty then ⟨.noChangesAfterFormat, [], store⟩
  else
    match resolveVersion t name w with
    | .error e => ⟨.versionError e, [], store⟩
    | .ok newVersion =>
      if !w.validationOk then ⟨.validationFailed, [], store⟩
      else
        let allFiles := enumerateChanges w.tree3
        if allFiles.isEmpty then ⟨.emptyChanges, [], store⟩
        else
          match allFiles.find? (fun f => !(isAllowedChange t name f)) with
          | some f => ⟨.scopeViolation f, [], store⟩
          | none =>
            commitPhase t name (branchName t name) (prTitle t name currentVersion newVersion)
              (prBody t name currentVersion newVersion) (splitLabels w.prLabels) w store

/-! ## Candidate discovery (`scripts/updater/discover.ts`) -/

structure MatrixItem where
  type : UpdateType
  name : String
  current_version : String
deriving DecidableEq, Repr

/-- JavaScript `s.split(/\s+/).filter(Boolean)`. -/
def splitWsF (s : String) : List String :=
  ((splitPred isWsChar s.data).map String.mk).filter (fun x => x ≠ "")

/-- First-key-wins deduplication, as `builtins.listToAttrs` resolves
duplicate names. -/
def dedupByKeyGo : List String → List (String × Option String) → List (String × Option String)
  | _, [] => []
  | seen, x :: xs =>
    if x.1 ∈ seen then dedupByKeyGo seen xs else x :: dedupByKeyGo (x.1 :: seen) xs

def dedupByKey (l : List (String × Option String)) : List (String × Option String) :=
  dedupByKeyGo [] l

/-- Model of the nix discovery expression evaluated against the package set
`pkgs` (`name ↦ version attribute, when present`): with no filter, every
package is reported with its optional version; with a filter, only the
filtered names that exist and carry a version are reported. -/
def evalPackagesExpr (pkgs : List (String × Option String)) :
    Option (List String) → List (String × Option String)
  | none => pkgs
  | some fs =>
    dedupByKey (fs.filterMap (fun f =>
      match pkgs.lookup f with
      | some (some v) => some (f, some v)
      | _ => none))

/-- Translation of the result handling of `discoverPackages`: a failed
evaluation is logged and yields no items; otherwise items are the names with
a non-null version, in sorted order, with skip logs (unfiltered only) and
per-name warnings (filtered only). -/
def discoverPackages (packagesFilter : Option String)
    (evalOutcome : Except String (List (String × Option String))) :
    List MatrixItem × List String :=
  match evalOutcome with
  | .error stderr => ([], ["Failed to evaluate packages:\n" ++ stderr])
  | .ok versions =>
    let names := jsSortStrs (versions.map Prod.fst)
    let items := names.filterMap (fun n =>
      match versions.lookup n with
      | some (some v) => some (MatrixItem.mk .package n v)
      | _ => none)
    let skipLogs :=
      match packagesFilter with
      | none => names.filterMap (fun n =>
          match versions.lookup n with
          | some none => some ("Skipping " ++ n ++ " (no version attribute)")
          | _ => none)
      | some _ => []
    let warnLogs :=
      match packagesFilter with
      | none => []
      | some pf => (splitWsF pf).filterMap (fun pkg =>
          if (versions.map Prod.fst).contains pkg then none
          else some ("Warning: Package " ++ pkg ++ " not found or has no version"))
    (items, skipLogs ++ warnLogs)

/-- One package-discovery run: the filter sent to the evaluation is the
whitespace-split filter set, or null when no filter was requested; a non-zero
evaluation exit is the error case. -/
def discoverPackagesRun (packagesFilter : Option String)
    (pkgs : List (String × Option String)) (evalOk : Bool) (stderr : String) :
    List MatrixItem × List String :=
  if evalOk then
    discoverPackages packagesFilter (.ok (evalPackagesExpr pkgs (packagesFilter.map splitWsF)))
  else discoverPackages packagesFilter (.error stderr)

/-- JavaScript `Object.keys` for the values reachable here. -/
def keysOf : Json → List String
  | .obj fs => fs.map Prod.fst
  | .arr xs => (List.range xs.length).map toString
  | .str s => (List.range s.length).map toString
  | _ => []

/-- Revision extraction of `discoverFlakeInputs`:
`(node.locked?.rev ?? "unknown").slice(0, 8)`.  A revision value that is
neither a string nor null/undefined has no usable `slice` and is out of the
lock-state contract (a number would throw a TypeError; an array would slice
to an array-valued `current_version`, unrepresentable in `MatrixItem`); the
model reports both as errors. -/
def lockedRev (node : Json) : Except String String :=
  let revOpt :=
    match jsIndexStr node "locked" with
    | none => none
    | some .null => none
    | some locked => jsIndexStr locked "rev"
  match revOpt with
  | none => .ok "unknown"
  | some .null => .ok "unknown"
  | some (.str s) => .ok (jsSlice8 s)
  | some _ => .error "lock-state contract violation: non-string revision"

def discoverFlakeInputsGo (nodes : Json) : List String → Except String (List MatrixItem)
  | [] => .ok []
  | n :: rest =>
    match jsIndexStr nodes n with
    | none => discoverFlakeInputsGo nodes rest
    | some nodeJ =>
      if jsFalsy (some nodeJ) then discoverFlakeInputsGo nodes rest
      else
        match lockedRev nodeJ with
        | .error e => .error e
        | .ok rev =>
          match discoverFlakeInputsGo nodes rest with
          | .error e => .error e
          | .ok tail => .ok (MatrixItem.mk .flakeInput n rev :: tail)

/-- Translation of `discoverFlakeInputs`.  The lock argument: `none` when no
`flake.lock` exists (`Deno.stat` throws, the function returns the empty list);
`some none` when the file exists but `JSON.parse` throws; `some (some j)` for
a parsed document `j`.  Unfiltered names are the non-root node keys, sorted;
a filter is taken in its own order, unsorted. -/
def discoverFlakeInputs (inputsFilter : Option String) (lock : Option (Option Json)) :
    Except String (List MatrixItem) :=
  match lock with
  | none => .ok []
  | some none => .error "flake.lock: invalid JSON"
  | some (some lockData) =>
    let nodes :=
      match jsIndexStr lockData "nodes" with
      | none => Json.obj []
      | some .null => Json.obj []
      | some v => v
    let inputNames :=
      match inputsFilter with
      | some f => splitWsF f
      | none => jsSortStrs ((keysOf nodes).filter (fun k => k ≠ "root"))
    discoverFlakeInputsGo nodes inputNames

/-- Translation of discovery's `main`: package items then pinned-reference
items; `has_items` is `count > 0`.  Empty environment filters mean
"unfiltered". -/
def discoverAll (packagesEnv inputsEnv : String) (pkgs : List (String × Option String))
    (evalOk : Bool) (stderr : String) (lock : Option (Option Json)) :
    Except String (List MatrixItem × Bool) :=
  let pFilter := if jsTrim packagesEnv = "" then none else some (jsTrim packagesEnv)
  let iFilter := if jsTrim inputsEnv = "" then none else some (jsTrim inputsEnv)
  let pItems := (discoverPackagesRun pFilter pkgs evalOk stderr).1
  match discoverFlakeInputs iFilter lock with
  | .error e => .error e
  | .ok iItems => .ok (pItems ++ iItems, !(pItems ++ iItems).isEmpty)

/-- Spec-side helper: the text before the first occurrence of `sep`. -/
def fieldBefore (sep : Char) : Str → Str
  | [] => []
  | c :: cs => if c = sep then [] else c :: fieldBefore sep cs

/-- Spec-side helper: the text after the first occurrence of `sep`, when one
exists. -/
def restAfter (sep : Char) : Str → Option Str
  | [] => none
  | c :: cs => if c = sep then some cs else restAfter sep cs

/-- Spec-side helper: all-or-nothing sequencing of parsed components — one
missing component makes the whole list absent, never partially filled. -/
def seqOpts : List (Option Nat) → Option (List Nat)
  | [] => some []
  | none :: _ => none
  | some x :: rest =>
    match seqOpts rest with
    | none => none
    | some xs => some (x :: xs)

/-- Number of open proposals for a branch. -/
def countPr (store : List Pr) (branch : String) : Nat :=
  (store.filter (fun p => p.branch = branch)).length

/-! ## Concrete collaborator results used by the witnesses -/

def lockNixpkgs : Json :=
  Json.obj [("nodes", Json.obj
    [("nixpkgs", Json.obj [("locked", Json.obj [("rev", Json.str "0123456789abcdef")])]),
     ("root", Json.obj [])])]

def lockNodesAB : Json :=
  Json.obj [("nodes", Json.obj
    [("a", Json.obj [("locked", Json.obj [("rev", Json.str "aaaaaaaaaaaa")])]),
     ("b", Json.obj [("locked", Json.obj [("rev", Json.str "bbbbbbbbbbbb")])])])]

/-- A run of the `foo` package in which every collaborator succeeds. -/
def wBase : World :=
  { ghToken := "token"
    tree0 := ⟨[], []⟩
    updaterOk := true
    tree1 := ⟨["packages/foo/hashes.json"], []⟩
    docsOk := true
    tree2 := ⟨["packages/foo/hashes.json", "README.md"], []⟩
    fmtOk := true
    tree3 := ⟨["packages/foo/hashes.json", "README.md"], []⟩
    nixEvalCode := 0
    nixEvalOut := "1.3.0"
    lockDoc := some lockNixpkgs
    validationOk := true
    switchOk := true
    addOk := true
    stagedNonempty := true
    commitOk := true
    pushOk := true
    prListOk := true
    prEditOk := true
    prCreateOk := true
    nextPrNumber := 7
    mergeOk := true
    prLabels := "dependencies,automated"
    autoMerge := "false" }

/-- A fully successful pinned-reference (flake input) run. -/
def wFlakeOk : World :=
  { wBase with
    tree1 := ⟨["flake.lock"], []⟩
    tree2 := ⟨["flake.lock", "README.md"], []⟩
    tree3 := ⟨["flake.lock", "README.md"], []⟩ }

/-- A pinned-reference run whose `flake.lock` parses to an array, violating
the document contract. -/
def wBadLock : World :=
  { wFlakeOk with lockDoc := some (Json.arr []) }

/-- A package run whose tree ends up touching `flake.nix`, outside the
package's allow-list. -/
def wScope : World :=
  { wBase with tree3 := ⟨["packages/foo/hashes.json", "flake.nix"], []⟩ }

/-- A package run whose updater only creates an untracked file. -/
def wUntrackedOnly : World :=
  { wBase with tree1 := ⟨[], ["packages/foo/new-file"]⟩ }

/-- A second run of the same package resolving a newer version. -/
def wSecond : World :=
  { wBase with
    nixEvalOut := "1.4.0"
    nextPrNumber := 9 }

/-- A package run whose `nix eval` of the new version fails. -/
def wEvalFail : World :=
  { wBase with nixEvalCode := 1 }

/-! ## Proofs -/

theorem lexLt_irrefl : ∀ a : List Nat, lexLt a a = false
  | [] => rfl
  | _ :: as => by simp [lexLt, lexLt_irrefl as]

theorem lexLt_asymm : ∀ a b : List Nat, lexLt a b = true → lexLt b a = false
  | [], [], h => by simp [lexLt] at h
  | [], _ :: _, _ => rfl
  | _ :: _, [], h => by simp [lexLt] at h
  | a :: as, b :: bs, h => by
    by_cases hab : a < b
    · show (if b < a then true else if a < b then false else lexLt bs as) = false
      rw [if_neg (Nat.lt_asymm hab), if_pos hab]
    · by_cases hba : b < a
      · simp [lexLt, hab, hba] at h
      · have hba2 : a = b := Nat.le_antisymm (Nat.not_lt.mp hba) (Nat.not_lt.mp hab)
        subst hba2
        simp [lexLt, Nat.lt_irrefl] at h ⊢
        exact lexLt_asymm as bs h

theorem lexLt_eq_of_not : ∀ a b : List Nat, lexLt a b = false → lexLt b a = false → a = b
  | [], [], _, _ => rfl
  | [], _ :: _, h, _ => by simp [lexLt] at h
  | _ :: _, [], _, h => by simp [lexLt] at h
  | a :: as, b :: bs, h, h' => by
    by_cases hab : a < b
    · simp [lexLt, hab] at h
    · by_cases hba : b < a
      · simp [lexLt, hba, Nat.not_lt.mpr (Nat.le_of_lt hba)] at h'
      · have : a = b := Nat.le_antisymm (Nat.not_lt.mp hba) (Nat.not_lt.mp hab)
        subst this
        simp [lexLt, Nat.lt_irrefl] at h h'
        rw [lexLt_eq_of_not as bs h h']

theorem lexLt_trans : ∀ a b c : List Nat,
    lexLt a b = true → lexLt b c = true → lexLt a c = true
  | [], _, _ :: _, _, _ => rfl
  | [], b, [], _, h => by cases b <;> simp [lexLt] at h
  | _ :: _, [], _, h, _ => by simp [lexLt] at h
  | _ :: _, _ :: _, [], _, h => by simp [lexLt] at h
  | a :: as, b :: bs, c :: cs, h, h' => by
    by_cases hab : a < b
    · by_cases hbc : b < c
      · simp [lexLt, Nat.lt_trans hab hbc]
      · by_cases hcb : c < b
        · simp [lexLt, hcb, Nat.not_lt.mpr (Nat.le_of_lt hcb)] at h'
        · have : b = c := Nat.le_antisymm (Nat.not_lt.mp hcb) (Nat.not_lt.mp hbc)
          subst this
          simp [lexLt, hab]
    · by_cases hba : b < a
      · simp [lexLt, hab, hba] at h
      · have : a = b := Nat.le_antisymm (Nat.not_lt.mp hba) (Nat.not_lt.mp hab)
        subst this
        simp [lexLt, Nat.lt_irrefl] at h
        by_cases hac : a < c
        · simp [lexLt, hac]
        · by_cases hca : c < a
          · simp [lexLt, hca, Nat.not_lt.mpr (Nat.le_of_lt hca)] at h'
          · have : a = c := Nat.le_antisymm (Nat.not_lt.mp hca) (Nat.not_lt.mp hac)
            subst this
            simp [lexLt, Nat.lt_irrefl] at h' ⊢
            exact lexLt_trans as bs cs h h'

theorem u16_ne_nil (c : Char) : u16 c ≠ [] := by
  unfold u16
  by_cases h : c.toNat < 0x10000 <;> simp [h]

theorem char_toNat_valid (c : Char) : c.toNat < 0xd800 ∨ (0xdfff < c.toNat ∧ c.toNat < 0x110000) :=
  c.valid

theorem char_toNat_inj {a b : Char} (h : a.toNat = b.toNat) : a = b := by
  cases a with
  | mk av ap =>
    cases b with
    | mk bv bp =>
      have : av = bv := UInt32.ext h
      subst this
      rfl

theorem u16_head_inj : ∀ a b : Char, u16 a = u16 b → a = b := by
  intro a b h
  unfold u16 at h
  by_cases ha : a.toNat < 0x10000
  · by_cases hb : b.toNat < 0x10000
    · simp [ha, hb] at h
      exact char_toNat_inj h
    · -- lists of length one and two cannot be equal
      simp [ha, hb] at h
  · by_cases hb : b.toNat < 0x10000
    · simp [ha, hb] at h
    · simp [ha, hb] at h
      obtain ⟨h1, h2⟩ := h
      apply char_toNat_inj
      have ha' : 0x10000 ≤ a.toNat := Nat.not_lt.mp ha
      have hb' : 0x10000 ≤ b.toNat := Nat.not_lt.mp hb
      have hdiv : (a.toNat - 0x10000) / 0x400 = (b.toNat - 0x10000) / 0x400 := by omega
      have hmod : (a.toNat - 0x10000) % 0x400 = (b.toNat - 0x10000) % 0x400 := by omega
      have : a.toNat - 0x10000 = b.toNat - 0x10000 := by
        have e1 := Nat.div_add_mod (a.toNat - 0x10000) 0x400
        have e2 := Nat.div_add_mod (b.toNat - 0x10000) 0x400
        omega
      omega

theorem u16_length_cases (c : Char) : (u16 c).length = 1 ∨ (u16 c).length = 2 := by
  unfold u16
  by_cases h : c.toNat < 0x10000 <;> simp [h]

theorem utf16_inj : ∀ a b : Str, utf16 a = utf16 b → a = b
  | [], [], _ => rfl
  | [], c :: cs, h => by
    exfalso
    have : u16 c ++ utf16 cs = [] := h.symm
    rcases List.append_eq_nil.mp this with ⟨h1, _⟩
    exact u16_ne_nil c h1
  | c :: cs, [], h => by
    exfalso
    have : u16 c ++ utf16 cs = [] := h
    rcases List.append_eq_nil.mp this with ⟨h1, _⟩
    exact u16_ne_nil c h1
  | a :: as, b :: bs, h => by
    have hu : utf16 (a :: as) = u16 a ++ utf16 as := rfl
    have hv : utf16 (b :: bs) = u16 b ++ utf16 bs := rfl
    rw [hu, hv] at h
    -- first, the heads encode to blocks of determined length, so the blocks align
    have hhead : u16 a = u16 b ∧ utf16 as = utf16 bs := by
      unfold u16 at h ⊢
      by_cases ha : a.toNat < 0x10000
      · by_cases hb : b.toNat < 0x10000
        · simp [ha, hb] at h ⊢
          exact ⟨h.1, h.2⟩
        · simp [ha, hb] at h ⊢
          exfalso
          have hq : (b.toNat - 0x10000) / 0x400 < 0x400 := by
            have hb2 : b.toNat < 0x110000 := by
              rcases char_toNat_valid b with h1 | ⟨_, h2⟩
              · omega
              · exact h2
            omega
          rcases char_toNat_valid a with h1 | ⟨h2, _⟩
          · omega
          · omega
      · by_cases hb : b.toNat < 0x10000
        · simp [ha, hb] at h ⊢
          exfalso
          have hq : (a.toNat - 0x10000) / 0x400 < 0x400 := by
            have ha2 : a.toNat < 0x110000 := by
              rcases char_toNat_valid a with h1 | ⟨_, h2⟩
              · omega
              · exact h2
            omega
          rcases char_toNat_valid b with h1 | ⟨h2, _⟩
          · omega
          · omega
        · simp [ha, hb] at h ⊢
          exact ⟨⟨h.1, h.2.1⟩, h.2.2⟩
    have : a = b := u16_head_inj a b hhead.1
    subst this
    rw [utf16_inj as bs hhead.2]

theorem jsLt_irrefl (a : Str) : jsLt a a = false := lexLt_irrefl _

theorem jsLt_asymm {a b : Str} (h : jsLt a b = true) : jsLt b a = false := lexLt_asymm _ _ h

theorem jsLt_trans {a b c : Str} (h : jsLt a b = true) (h' : jsLt b c = true) :
    jsLt a c = true := lexLt_trans _ _ _ h h'

theorem jsLt_total {a b : Str} (h : jsLt a b = false) (h' : jsLt b a = false) : a = b :=
  utf16_inj a b (lexLt_eq_of_not _ _ h h')

theorem getD_eq_headD_drop : ∀ (l : List Nat) (i : Nat), l.getD i 0 = (l.drop i).headD 0
  | [], i => by simp [List.getD]
  | _ :: _, 0 => rfl
  | _ :: xs, i + 1 => by simpa using getD_eq_headD_drop xs i

theorem drop_succ_eq_tail_drop : ∀ (l : List Nat) (i : Nat), l.drop (i + 1) = (l.drop i).tail
  | [], _ => by simp
  | _ :: _, 0 => by simp
  | _ :: xs, i + 1 => by simpa using drop_succ_eq_tail_drop xs i

theorem cmpIdxGo_eq_cmpPad : ∀ (fuel : Nat) (a b : List Nat) (i : Nat),
    max a.length b.length ≤ i + fuel → cmpIdxGo fuel a b i = cmpPad (a.drop i) (b.drop i) := by
  intro fuel
  induction fuel with
  | zero =>
    intro a b i h
    have ha : a.drop i = [] := List.drop_eq_nil_of_le (by omega)
    have hb : b.drop i = [] := List.drop_eq_nil_of_le (by omega)
    rw [ha, hb]
    rfl
  | succ fuel ih =>
    intro a b i h
    have hga := getD_eq_headD_drop a i
    have hgb := getD_eq_headD_drop b i
    have hta := drop_succ_eq_tail_drop a i
    have htb := drop_succ_eq_tail_drop b i
    cases hda : a.drop i with
    | nil =>
      have hla : a.length ≤ i := List.drop_eq_nil_iff_le.mp hda
      cases hdb : b.drop i with
      | nil =>
        have hlb : b.length ≤ i := List.drop_eq_nil_iff_le.mp hdb
        simp only [cmpIdxGo]
        rw [hga, hgb, hda, hdb]
        simp only [List.headD, Nat.lt_irrefl, if_false]
        rw [ih a b (i + 1) (by omega), hta, htb, hda, hdb]
        rfl
      | cons y ys =>
        simp only [cmpIdxGo]
        rw [hga, hgb, hda, hdb]
        simp only [List.headD]
        by_cases hy : 0 < y
        · rw [if_pos hy]
          show (-1 : Int) = cmpPad [] (y :: ys)
          simp [cmpPad, cmpZeros, hy]
        · have : y = 0 := by omega
          subst this
          simp only [Nat.lt_irrefl, if_false]
          rw [ih a b (i + 1) (by omega), hta, htb, hda, hdb]
          simp [cmpPad, cmpZeros]
    | cons x xs =>
      cases hdb : b.drop i with
      | nil =>
        have hlb : b.length ≤ i := List.drop_eq_nil_iff_le.mp hdb
        simp only [cmpIdxGo]
        rw [hga, hgb, hda, hdb]
        simp only [List.headD]
        by_cases hx : 0 < x
        · rw [if_neg (by omega), if_pos hx]
          show (1 : Int) = cmpPad (x :: xs) []
          simp [cmpPad, hx]
        · have : x = 0 := by omega
          subst this
          simp only [Nat.lt_irrefl, if_false]
          rw [ih a b (i + 1) (by omega), hta, htb, hda, hdb]
          simp [cmpPad]
      | cons y ys =>
        simp only [cmpIdxGo]
        rw [hga, hgb, hda, hdb]
        simp only [List.headD]
        by_cases hxy : x < y
        · rw [if_pos hxy]
          show (-1 : Int) = cmpPad (x :: xs) (y :: ys)
          simp [cmpPad, hxy]
        · by_cases hyx : y < x
          · rw [if_neg hxy, if_pos hyx]
            show (1 : Int) = cmpPad (x :: xs) (y :: ys)
            simp [cmpPad, hxy, hyx]
          · have : x = y := by omega
            subst this
            simp only [Nat.lt_irrefl, if_false]
            rw [ih a b (i + 1) (by omega), hta, htb, hda, hdb]
            simp [cmpPad]

theorem cmpIdx_eq_cmpPad (a b : List Nat) : cmpIdx a b = cmpPad a b := by
  unfold cmpIdx
  rw [cmpIdxGo_eq_cmpPad (max a.length b.length) a b 0 (by omega)]
  simp

theorem cmpPad_self : ∀ a : List Nat, cmpPad a a = 0
  | [] => rfl
  | a :: as => by simp [cmpPad, cmpPad_self as]

theorem cmpZeros_vals : ∀ b : List Nat, cmpZeros b = -1 ∨ cmpZeros b = 0
  | [] => by simp [cmpZeros]
  | b :: bs => by
    by_cases hb : 0 < b
    · simp [cmpZeros, hb]
    · simpa [cmpZeros, hb] using cmpZeros_vals bs

theorem cmpPad_vals : ∀ a b : List Nat, cmpPad a b = -1 ∨ cmpPad a b = 0 ∨ cmpPad a b = 1
  | [], bs => by
    rcases cmpZeros_vals bs with h | h <;> simp [cmpPad, h]
  | a :: as, [] => by
    by_cases ha : 0 < a
    · simp [cmpPad, ha]
    · simpa [cmpPad, ha] using cmpPad_vals as []
  | a :: as, b :: bs => by
    by_cases hab : a < b
    · simp [cmpPad, hab]
    · by_cases hba : b < a
      · simp [cmpPad, hab, hba]
      · simpa [cmpPad, hab, hba] using cmpPad_vals as bs

theorem cmpPad_nil_right : ∀ a : List Nat, cmpPad a [] = -cmpZeros a
  | [] => by simp [cmpPad, cmpZeros]
  | a :: as => by
    by_cases ha : 0 < a
    · simp [cmpPad, cmpZeros, ha]
    · simpa [cmpPad, cmpZeros, ha] using cmpPad_nil_right as

theorem cmpPad_neg : ∀ a b : List Nat, cmpPad b a = -cmpPad a b
  | [], bs => by
    rw [cmpPad_nil_right bs]
    rfl
  | a :: as, [] => by
    rw [cmpPad_nil_right (a :: as), Int.neg_neg]
    rfl
  | a :: as, b :: bs => by
    by_cases hab : a < b
    · simp [cmpPad, hab, Nat.lt_asymm hab]
    · by_cases hba : b < a
      · simp [cmpPad, hab, hba]
      · simpa [cmpPad, hab, hba] using cmpPad_neg as bs

theorem cmpPad_zeros_left : ∀ (bs c : List Nat), cmpZeros bs = 0 → cmpPad bs c = cmpZeros c
  | [], _, _ => rfl
  | b :: bs, c, h => by
    have hb : ¬0 < b := by
      intro hb
      simp [cmpZeros, hb] at h
    have hb0 : b = 0 := by omega
    have hrest : cmpZeros bs = 0 := by
      simpa [cmpZeros, hb] using h
    subst hb0
    cases c with
    | nil =>
      show (if 0 < 0 then (1 : Int) else cmpPad bs []) = 0
      rw [if_neg (by omega), cmpPad_nil_right bs, hrest]
      rfl
    | cons c0 cs =>
      by_cases hc : 0 < c0
      · simp [cmpPad, cmpZeros, hc]
      · have : c0 = 0 := by omega
        subst this
        simpa [cmpPad, cmpZeros] using cmpPad_zeros_left bs cs hrest

theorem cmpPad_zero_congr : ∀ (a b c : List Nat), cmpPad a b = 0 → cmpPad a c = cmpPad b c
  | [], bs, c, h => by
    have hz : cmpZeros bs = 0 := h
    rw [show cmpPad [] c = cmpZeros c from rfl, cmpPad_zeros_left bs c hz]
  | a :: as, [], c, h => by
    have hz : cmpZeros (a :: as) = 0 := by
      have := cmpPad_nil_right (a :: as)
      omega
    rw [cmpPad_zeros_left (a :: as) c hz]
    rfl
  | a :: as, b :: bs, c, h => by
    have hab : ¬a < b := by
      intro hx
      simp [cmpPad, hx] at h
    have hba : ¬b < a := by
      intro hx
      simp [cmpPad, hab, hx] at h
    have heq : a = b := by omega
    have hrest : cmpPad as bs = 0 := by
      simpa [cmpPad, hab, hba] using h
    subst heq
    cases c with
    | nil =>
      by_cases ha : 0 < a
      · simp [cmpPad, ha]
      · simpa [cmpPad, ha] using cmpPad_zero_congr as bs [] hrest
    | cons c0 cs =>
      by_cases hac : a < c0
      · simp [cmpPad, hac]
      · by_cases hca : c0 < a
        · simp [cmpPad, hac, hca]
        · simpa [cmpPad, hac, hca] using cmpPad_zero_congr as bs cs hrest
termination_by a b c => a.length + b.length + c.length

theorem cmpPad_neg_one_trans : ∀ (a b c : List Nat),
    cmpPad a b = -1 → cmpPad b c ≤ 0 → cmpPad a c = -1
  | [], bs, c, h, h2 => by
    have hz : cmpZeros bs = -1 := h
    show cmpZeros c = -1
    match bs, c with
    | [], _ => simp [cmpZeros] at hz
    | b :: bs2, [] =>
      exfalso
      by_cases hb : 0 < b
      · simp [cmpPad, hb] at h2
      · have : b = 0 := by omega
        subst this
        rw [show cmpPad (0 :: bs2) [] = if 0 < 0 then (1 : Int) else cmpPad bs2 [] from rfl,
          if_neg (by omega), cmpPad_nil_right bs2] at h2
        have : cmpZeros bs2 = -1 := by simpa [cmpZeros, hb] using hz
        omega
    | b :: bs2, c0 :: cs =>
      by_cases hc : 0 < c0
      · simp [cmpZeros, hc]
      · have hc0 : c0 = 0 := by omega
        subst hc0
        by_cases hb : 0 < b
        · simp [cmpPad, hb] at h2
        · have hb0 : b = 0 := by omega
          subst hb0
          have hz2 : cmpZeros bs2 = -1 := by simpa [cmpZeros] using hz
          have h2' : cmpPad bs2 cs ≤ 0 := by simpa [cmpPad] using h2
          have := cmpPad_neg_one_trans [] bs2 cs hz2 h2'
          simpa [cmpZeros] using this
  | a :: as, [], c, h, _ => by
    exfalso
    rw [cmpPad_nil_right (a :: as)] at h
    rcases cmpZeros_vals (a :: as) with hv | hv <;> omega
  | a :: as, b :: bs, c, h, h2 => by
    by_cases hab : a < b
    · cases c with
      | nil =>
        exfalso
        by_cases hb : 0 < b
        · simp [cmpPad, hb] at h2
        · omega
      | cons c0 cs =>
        by_cases hbc : b < c0
        · simp [cmpPad, Nat.lt_trans hab hbc]
        · by_cases hcb : c0 < b
          · simp [cmpPad, hbc, hcb] at h2
          · have : b = c0 := by omega
            subst this
            simp [cmpPad, hab]
    · by_cases hba : b < a
      · simp [cmpPad, hab, hba] at h
      · have heq : a = b := by omega
        have hrest : cmpPad as bs = -1 := by simpa [cmpPad, hab, hba] using h
        subst heq
        cases c with
        | nil =>
          by_cases ha : 0 < a
          · simp [cmpPad, ha] at h2
          · have h2' : cmpPad bs [] ≤ 0 := by simpa [cmpPad, ha] using h2
            simpa [cmpPad, ha] using cmpPad_neg_one_trans as bs [] hrest h2'
        | cons c0 cs =>
          by_cases hac : a < c0
          · simp [cmpPad, hac]
          · by_cases hca : c0 < a
            · simp [cmpPad, hca, Nat.lt_asymm hca] at h2
            · have : a = c0 := by omega
              subst this
              have h2' : cmpPad bs cs ≤ 0 := by simpa [cmpPad, hac, hca] using h2
              simpa [cmpPad, hac, hca] using cmpPad_neg_one_trans as bs cs hrest h2'
termination_by a b c => a.length + b.length + c.length

theorem sfxCmp_self (a : Str) : sfxCmp a a = 0 := by simp [sfxCmp]

theorem sfxCmp_vals (a b : Str) : sfxCmp a b = -1 ∨ sfxCmp a b = 0 ∨ sfxCmp a b = 1 := by
  unfold sfxCmp
  split_ifs <;> simp

theorem sfxCmp_eq_zero_iff (a b : Str) : sfxCmp a b = 0 ↔ a = b := by
  unfold sfxCmp
  by_cases h1 : a = b
  · simp [h1]
  · simp only [h1, if_false]
    split_ifs <;> simp [h1]

theorem sfxCmp_neg (a b : Str) : sfxCmp b a = -sfxCmp a b := by
  by_cases hab : a = b
  · subst hab
    simp [sfxCmp]
  · have hba : ¬b = a := fun h => hab h.symm
    by_cases ha : a = []
    · subst ha
      have hb : ¬b = [] := fun h => hab h.symm
      simp [sfxCmp, hba, hb]
    · by_cases hb : b = []
      · subst hb
        simp [sfxCmp, hab, hba, ha]
      · by_cases hlt : jsLt a b = true
        · have : jsLt b a = false := jsLt_asymm hlt
          simp [sfxCmp, hab, hba, ha, hb, hlt, this]
        · have hlt' : jsLt a b = false := by
            cases h : jsLt a b
            · rfl
            · exact absurd h hlt
          have : jsLt b a = true := by
            cases h : jsLt b a
            · exact absurd (jsLt_total hlt' h) hab
            · rfl
          simp [sfxCmp, hab, hba, ha, hb, hlt', this]

theorem sfxCmp_trans_le (a b c : Str) (h1 : sfxCmp a b ≤ 0) (h2 : sfxCmp b c ≤ 0) :
    sfxCmp a c ≤ 0 := by
  by_cases hab : a = b
  · subst hab
    exact h2
  · by_cases hbc : b = c
    · subst hbc
      exact h1
    · by_cases hac : a = c
      · subst hac
        simp [sfxCmp]
      · have ha : a ≠ [] := by
          intro h
          subst h
          simp [sfxCmp, hab] at h1
        have hb : b ≠ [] := by
          intro h
          subst h
          simp [sfxCmp, hbc] at h2
        have hlt1 : jsLt a b = true := by
          cases h : jsLt a b
          · by_cases hbn : b = []
            · subst hbn
              exact absurd rfl hb
            · simp [sfxCmp, hab, ha, hbn, h] at h1
          · rfl
        by_cases hcn : c = []
        · subst hcn
          simp [sfxCmp, hac, ha]
        · have hlt2 : jsLt b c = true := by
            cases h : jsLt b c
            · simp [sfxCmp, hbc, hb, hcn, h] at h2
            · rfl
          simp [sfxCmp, hac, ha, hcn, jsLt_trans hlt1 hlt2]

theorem compareVersions_refl (a : Str) : compareVersions a a = 0 := by
  simp [compareVersions]

theorem compareVersions_eq_of_parses {a b : Str} (hab : a ≠ b)
    {na nb : List Nat} (ha : (parseVersion a).numericParts = some na)
    (hb : (parseVersion b).numericParts = some nb) :
    compareVersions a b =
      (if cmpPad na nb = 0 then sfxCmp (parseVersion a).suffix (parseVersion b).suffix
       else cmpPad na nb) := by
  simp only [compareVersions]
  rw [if_neg hab, ha, hb]
  dsimp only
  rw [cmpIdx_eq_cmpPad]

theorem compareVersions_eq_fallback {a b : Str} (hab : a ≠ b)
    (h : (parseVersion a).numericParts = none ∨ (parseVersion b).numericParts = none) :
    compareVersions a b = if jsLt a b then -1 else 1 := by
  simp only [compareVersions]
  rw [if_neg hab]
  rcases h with h | h
  · rw [h]
  · cases ha : (parseVersion a).numericParts <;> rw [h]

theorem fallback_neg {a b : Str} (hab : a ≠ b) :
    (if jsLt b a then (-1 : Int) else 1) = -(if jsLt a b then (-1 : Int) else 1) := by
  by_cases hlt : jsLt a b = true
  · rw [if_pos hlt, if_neg (by simp [jsLt_asymm hlt])]
    decide
  · have hlt' : jsLt a b = false := by
      cases h : jsLt a b
      · rfl
      · exact absurd h hlt
    have hba : jsLt b a = true := by
      cases h : jsLt b a
      · exact absurd (jsLt_total hlt' h) hab
      · rfl
    rw [if_pos hba, if_neg (by simp [hlt'])]

theorem compareVersions_antisym (a b : Str) : compareVersions b a = -compareVersions a b := by
  by_cases hab : a = b
  · subst hab
    simp [compareVersions]
  · have hba : b ≠ a := fun h => hab h.symm
    cases hpa : (parseVersion a).numericParts with
    | none =>
      rw [compareVersions_eq_fallback hab (Or.inl hpa),
        compareVersions_eq_fallback hba (Or.inr hpa)]
      exact fallback_neg hab
    | some na =>
      cases hpb : (parseVersion b).numericParts with
      | none =>
        rw [compareVersions_eq_fallback hab (Or.inr hpb),
          compareVersions_eq_fallback hba (Or.inl hpb)]
        exact fallback_neg hab
      | some nb =>
        rw [compareVersions_eq_of_parses hab hpa hpb,
          compareVersions_eq_of_parses hba hpb hpa]
        by_cases h0 : cmpPad na nb = 0
        · have h0' : cmpPad nb na = 0 := by
            rw [cmpPad_neg]
            omega
          rw [if_pos h0, if_pos h0', sfxCmp_neg]
        · have h0' : ¬cmpPad nb na = 0 := by
            rw [cmpPad_neg]
            omega
          rw [if_neg h0, if_neg h0', cmpPad_neg]

theorem compareVersions_trans_parseable (a b c : Str)
    (hpa : (parseVersion a).numericParts ≠ none) (hpb : (parseVersion b).numericParts ≠ none)
    (hpc : (parseVersion c).numericParts ≠ none)
    (h1 : compareVersions a b ≤ 0) (h2 : compareVersions b c ≤ 0) :
    compareVersions a c ≤ 0 := by
  obtain ⟨na, hna⟩ := Option.ne_none_iff_exists'.mp hpa
  obtain ⟨nb, hnb⟩ := Option.ne_none_iff_exists'.mp hpb
  obtain ⟨nc, hnc⟩ := Option.ne_none_iff_exists'.mp hpc
  by_cases hab : a = b
  · subst hab
    exact h2
  · by_cases hbc : b = c
    · subst hbc
      exact h1
    · by_cases hac : a = c
      · subst hac
        rw [compareVersions_refl]
      · rw [compareVersions_eq_of_parses hab hna hnb] at h1
        rw [compareVersions_eq_of_parses hbc hnb hnc] at h2
        rw [compareVersions_eq_of_parses hac hna hnc]
        by_cases hz1 : cmpPad na nb = 0
        · rw [if_pos hz1] at h1
          have hcongr : cmpPad na nc = cmpPad nb nc := cmpPad_zero_congr na nb nc hz1
          by_cases hz2 : cmpPad nb nc = 0
          · rw [if_pos hz2] at h2
            rw [if_pos (hcongr.trans hz2)]
            exact sfxCmp_trans_le _ _ _ h1 h2
          · rw [if_neg hz2] at h2
            rw [hcongr] at *
            rw [if_neg hz2]
            exact h2
        · rw [if_neg hz1] at h1
          have hm1 : cmpPad na nb = -1 := by
            rcases cmpPad_vals na nb with h | h | h <;> omega
          have hle2 : cmpPad nb nc ≤ 0 := by
            by_cases hz2 : cmpPad nb nc = 0
            · omega
            · rw [if_neg hz2] at h2
              exact h2
          have : cmpPad na nc = -1 := cmpPad_neg_one_trans na nb nc hm1 hle2
          rw [if_neg (by omega), this]
          omega

theorem compareVersions_trans_unparseable (a b c : Str)
    (hpa : (parseVersion a).numericParts = none) (hpc : (parseVersion c).numericParts = none)
    (h1 : compareVersions a b ≤ 0) (h2 : compareVersions b c ≤ 0) :
    compareVersions a c ≤ 0 := by
  by_cases hab : a = b
  · subst hab
    exact h2
  · by_cases hbc : b = c
    · subst hbc
      exact h1
    · by_cases hac : a = c
      · subst hac
        rw [compareVersions_refl]
      · rw [compareVersions_eq_fallback hab (Or.inl hpa)] at h1
        rw [compareVersions_eq_fallback hbc (Or.inr hpc)] at h2
        rw [compareVersions_eq_fallback hac (Or.inl hpa)]
        have hlt1 : jsLt a b = true := by
          cases h : jsLt a b
          · rw [h] at h1
            simp at h1
          · rfl
        have hlt2 : jsLt b c = true := by
          cases h : jsLt b c
          · rw [h] at h2
            simp at h2
          · rfl
        rw [if_pos (jsLt_trans hlt1 hlt2)]
        omega

theorem stripLeadingV_of_head_ne {v : Str} (h : v.head? ≠ some 'v') : stripLeadingV v = v := by
  cases v with
  | nil => rfl
  | cons c cs =>
    have hc : c ≠ 'v' := by
      intro he
      exact h (by rw [he]; rfl)
    simp [stripLeadingV, hc]

theorem splitChar_ne_nil (sep : Char) : ∀ l : Str, splitChar sep l ≠ []
  | [] => by simp [splitChar]
  | c :: cs => by
    by_cases h : c = sep
    · simp [splitChar, h]
    · simp only [splitChar, if_neg h]
      cases hs : splitChar sep cs <;> simp

theorem splitChar_head (sep : Char) : ∀ l : Str, (splitChar sep l).getD 0 [] = fieldBefore sep l
  | [] => rfl
  | c :: cs => by
    by_cases h : c = sep
    · simp [splitChar, fieldBefore, h]
    · simp only [splitChar, fieldBefore, if_neg h]
      cases hs : splitChar sep cs with
      | nil => exact absurd hs (splitChar_ne_nil sep cs)
      | cons hd tl =>
        have ih := splitChar_head sep cs
        rw [hs] at ih
        simp only [List.getD_cons_zero] at ih ⊢
        rw [ih]

theorem splitChar_second (sep : Char) : ∀ l : Str,
    (splitChar sep l).getD 1 [] =
      (match restAfter sep l with
       | none => []
       | some r => fieldBefore sep r)
  | [] => rfl
  | c :: cs => by
    by_cases h : c = sep
    · simp only [splitChar, restAfter, if_pos h]
      have ih := splitChar_head sep cs
      simpa only [List.getD_cons_succ, List.getD_cons_zero] using ih
    · simp only [splitChar, restAfter, if_neg h]
      cases hs : splitChar sep cs with
      | nil => exact absurd hs (splitChar_ne_nil sep cs)
      | cons hd tl =>
        have ih := splitChar_second sep cs
        rw [hs] at ih
        simpa only [List.getD_cons_succ] using ih

theorem seqOpts_eq : ∀ opts : List (Option Nat),
    seqOpts opts =
      (if opts.any Option.isNone then none else some (opts.map (fun o => o.getD 0)))
  | [] => rfl
  | none :: rest => by simp [seqOpts]
  | some x :: rest => by
    have ih := seqOpts_eq rest
    cases h : rest.any Option.isNone with
    | true =>
      rw [h] at ih
      simp only [if_true] at ih
      simp [seqOpts, ih, h]
    | false =>
      rw [h] at ih
      simp only [Bool.false_eq_true, if_false] at ih
      simp [seqOpts, ih, h]

theorem parseVersion_suffix_eq (v : Str) :
    (parseVersion v).suffix =
      (splitChar '-' (replaceFirstPlus (stripLeadingV v))).getD 1 [] := by
  simp only [parseVersion]
  split_ifs <;> rfl

theorem parseVersion_numeric_eq (v : Str) :
    (parseVersion v).numericParts =
      (if (splitChar '-' (replaceFirstPlus (stripLeadingV v))).getD 0 [] = [] then none
       else seqOpts
        (((splitChar '.' ((splitChar '-' (replaceFirstPlus (stripLeadingV v))).getD 0 [])).map
          jsNumberNat))) := by
  simp only [parseVersion]
  split_ifs with h1 h2
  · rfl
  · rw [seqOpts_eq, if_pos h2]
  · rw [seqOpts_eq, if_neg h2]

/-- Claim C3, counterexample: `compareVersions` is not transitive on all
strings.  `"10" < "10x"` and `"10x" < "2"` hold through the lexicographic
fallback (the parse of `"10x"` has no numeric parts), yet `"10" > "2"`
numerically. -/
theorem claim_C3_counterexample :
    ¬(∀ a b c : Str, compareVersions a b ≤ 0 → compareVersions b c ≤ 0 →
        compareVersions a c ≤ 0) := by
  intro h
  have h1 : compareVersions (strOf "10") (strOf "10x") = -1 := by decide
  have h2 : compareVersions (strOf "10x") (strOf "2") = -1 := by decide
  have h3 : compareVersions (strOf "10") (strOf "2") = 1 := by decide
  have := h (strOf "10") (strOf "10x") (strOf "2") (by omega) (by omega)
  omega

/-- Claim C3, amended: `compareVersions` is reflexive (`compare(a, a) = 0`)
and antisymmetric (`compare(b, a) = -compare(a, b)`, so the two directions
have opposite signs or are both 0) on all strings; transitivity holds on any
three strings that all parse to numeric parts, and on any three strings none
of which parses, but can fail when parseable and unparseable strings mix
(see the counterexample). -/
theorem claim_C3 :
    (∀ a : Str, compareVersions a a = 0) ∧
    (∀ a b : Str, compareVersions b a = -compareVersions a b) ∧
    (∀ a b c : Str,
      (parseVersion a).numericParts ≠ none → (parseVersion b).numericParts ≠ none →
      (parseVersion c).numericParts ≠ none →
      compareVersions a b ≤ 0 → compareVersions b c ≤ 0 → compareVersions a c ≤ 0) ∧
    (∀ a b c : Str,
      (parseVersion a).numericParts = none → (parseVersion b).numericParts = none →
      (parseVersion c).numericParts = none →
      compareVersions a b ≤ 0 → compareVersions b c ≤ 0 → compareVersions a c ≤ 0) :=
  ⟨compareVersions_refl, compareVersions_antisym, compareVersions_trans_parseable,
    fun a b c hpa _ hpc h1 h2 => compareVersions_trans_unparseable a b c hpa hpc h1 h2⟩

/-- Witness for the amended C3 at concrete versions: transitivity through
`1.2 ≤ 1.2.5 ≤ 1.3` (all parseable) and through `aa ≤ ab ≤ ac` (none
parseable). -/
theorem claim_C3_witness :
    compareVersions (strOf "1.2") (strOf "1.3") ≤ 0 ∧
    compareVersions (strOf "aa") (strOf "ac") ≤ 0 :=
  ⟨claim_C3.2.2.1 (strOf "1.2") (strOf "1.2.5") (strOf "1.3") (by decide) (by decide)
      (by decide) (by decide) (by decide),
    claim_C3.2.2.2 (strOf "aa") (strOf "ab") (strOf "ac") (by decide) (by decide)
      (by decide) (by decide) (by decide)⟩

/-- Claim C4, counterexample: the suffix is NOT the entire rest of the string
after the first separator — `split("-", 2)` drops everything after the second
dash, so `parseVersion "1.0-a-b"` has suffix `"a"`, not `"a-b"`. -/
theorem claim_C4_counterexample :
    (parseVersion (strOf "1.0-a-b")).suffix ≠ strOf "a-b" ∧
    (parseVersion (strOf "1.0-a-b")).suffix = strOf "a" := by decide

/-- Claim C4, amended: `parseVersion` strips one leading `v`; after rewriting
the first `+` to `-`, the numeric segment is the text before the first `-`
and the suffix is the text strictly between the first and the second `-`
(text after a second `-` is dropped, and a `+` after the first `-` or `+` is
kept verbatim); the numeric segment, when non-empty, is split on `.` and
converted all-or-nothing: one unconvertible component makes `numericParts`
absent entirely, never partially filled (an empty numeric segment also gives
absent `numericParts`). -/
theorem claim_C4 :
    (∀ v : Str, v.head? ≠ some 'v' → parseVersion ('v' :: v) = parseVersion v) ∧
    (∀ v : Str,
      (parseVersion v).suffix =
        (match restAfter '-' (replaceFirstPlus (stripLeadingV v)) with
         | none => []
         | some r => fieldBefore '-' r)) ∧
    (∀ v : Str,
      (parseVersion v).numericParts =
        (if fieldBefore '-' (replaceFirstPlus (stripLeadingV v)) = [] then none
         else seqOpts
          ((splitChar '.' (fieldBefore '-' (replaceFirstPlus (stripLeadingV v)))).map
            jsNumberNat))) := by
  refine ⟨?_, ?_, ?_⟩
  · intro v h
    have h1 : stripLeadingV ('v' :: v) = v := by simp [stripLeadingV]
    have h2 : stripLeadingV v = v := stripLeadingV_of_head_ne h
    simp only [parseVersion]
    rw [h1, h2]
  · intro v
    rw [parseVersion_suffix_eq, splitChar_second]
  · intro v
    rw [parseVersion_numeric_eq, splitChar_head]

/-- Witness for the amended C4 at concrete versions. -/
theorem claim_C4_witness :
    parseVersion ('v' :: strOf "1.2") = parseVersion (strOf "1.2") ∧
    (parseVersion (strOf "1.0-rc1")).suffix =
      (match restAfter '-' (replaceFirstPlus (stripLeadingV (strOf "1.0-rc1"))) with
       | none => []
       | some r => fieldBefore '-' r) :=
  ⟨claim_C4.1 (strOf "1.2") (by decide), claim_C4.2.1 (strOf "1.0-rc1")⟩

/-- Claim C5: for distinct version strings, `compareVersions` falls back to
the raw UTF-16 lexicographic comparison of the two full original strings when
either parse has no numeric parts; otherwise the numeric parts decide via the
pairwise, zero-extended comparison (`cmpPad`; in particular `"1.2"` and
`"1.2.0"` are equal), and on a numeric tie the suffixes decide through
`sfxCmp` (equal suffixes tie, the empty suffix ranks after any non-empty one,
two non-empty suffixes compare lexicographically).  The claim's phrase
"left-padded" is read as the zero-extension its own example
`compareVersions("1.2", "1.2.0") = 0` prescribes. -/
theorem claim_C5 :
    (∀ a b : Str, a ≠ b →
      (parseVersion a).numericParts = none ∨ (parseVersion b).numericParts = none →
      compareVersions a b = if jsLt a b then -1 else 1) ∧
    (∀ (a b : Str) (na nb : List Nat),
      a ≠ b →
      (parseVersion a).numericParts = some na → (parseVersion b).numericParts = some nb →
      compareVersions a b =
        (if cmpPad na nb = 0 then sfxCmp (parseVersion a).suffix (parseVersion b).suffix
         else cmpPad na nb)) ∧
    compareVersions (strOf "1.2") (strOf "1.2.0") = 0 :=
  ⟨fun _ _ hab h => compareVersions_eq_fallback hab h,
    fun _ _ _ _ hab ha hb => compareVersions_eq_of_parses hab ha hb,
    by decide⟩

/-- Witness for C5 at concrete versions: the lexicographic fallback on
`"abc"`/`"abd"` and the suffix rule on `"1.0.0-rc1"`/`"1.0.0"`. -/
theorem claim_C5_witness :
    compareVersions (strOf "abc") (strOf "abd") =
      (if jsLt (strOf "abc") (strOf "abd") then -1 else 1) ∧
    compareVersions (strOf "1.0.0-rc1") (strOf "1.0.0") =
      (if cmpPad [1, 0, 0] [1, 0, 0] = 0 then
        sfxCmp (parseVersion (strOf "1.0.0-rc1")).suffix (parseVersion (strOf "1.0.0")).suffix
       else cmpPad [1, 0, 0] [1, 0, 0]) :=
  ⟨claim_C5.1 (strOf "abc") (strOf "abd") (by decide) (by decide),
    claim_C5.2.1 (strOf "1.0.0-rc1") (strOf "1.0.0") [1, 0, 0] [1, 0, 0] (by decide)
      (by decide) (by decide)⟩

theorem autoMergePhase_eq (br ti bo : String) (n : Option Nat) (w : World) (st : List Pr)
    (acts : List ExtAction) :
    autoMergePhase br ti bo n w st acts =
      ⟨.success br ti bo n,
       acts ++
        (if w.autoMerge = "true" then
          (match n with
           | some k => if w.mergeOk then [ExtAction.autoMergeReq k] else []
           | none => [])
         else []),
       st⟩ := by
  by_cases h : w.autoMerge = "true"
  · cases n with
    | some k =>
      by_cases hm : w.mergeOk = true
      · simp [autoMergePhase, h, hm]
      · simp only [Bool.not_eq_true] at hm
        simp [autoMergePhase, h, hm]
    | none => simp [autoMergePhase, h]
  · simp [autoMergePhase, h]

theorem publishPhase_success_inv {br ti bo : String} {la : List String} {w : World}
    {st : List Pr} {acts : List ExtAction} {b t2 b2 : String} {p : Option Nat}
    {A : List ExtAction} {P : List Pr}
    (h : publishPhase br ti bo la w st acts = ⟨.success b t2 b2 p, A, P⟩) :
    b = br ∧ t2 = ti ∧ b2 = bo ∧ (∃ ext, A = acts ++ ext) ∧
    ((∃ n, ghPrNumberForBranch st br = some n ∧ P = editPr st n ti bo) ∨
     (ghPrNumberForBranch st br = none ∧ P = st ++ [Pr.mk br w.nextPrNumber ti bo])) := by
  by_cases hl : w.prListOk = true
  · cases hq : ghPrNumberForBranch st br with
    | some n =>
      by_cases he : w.prEditOk = true
      · have heq : publishPhase br ti bo la w st acts =
            autoMergePhase br ti bo (some n) w (editPr st n ti bo)
              (acts ++ [ExtAction.prEdit n ti bo la]) := by
          unfold publishPhase
          rw [hq]
          simp [hl, he]
        rw [heq, autoMergePhase_eq] at h
        injection h with hr ha hp
        injection hr with e1 e2 e3 e4
        refine ⟨e1.symm, e2.symm, e3.symm, ⟨_, by rw [← ha, List.append_assoc]⟩, ?_⟩
        exact Or.inl ⟨n, rfl, hp.symm⟩
      · simp only [Bool.not_eq_true] at he
        have heq : publishPhase br ti bo la w st acts = ⟨.publishEditFailed, acts, st⟩ := by
          unfold publishPhase
          rw [hq]
          simp [hl, he]
        rw [heq] at h
        injection h with hr
        exact absurd hr (by simp)
    | none =>
      by_cases he : w.prCreateOk = true
      · have heq : publishPhase br ti bo la w st acts =
            autoMergePhase br ti bo
              (ghPrNumberForBranch (st ++ [Pr.mk br w.nextPrNumber ti bo]) br) w
              (st ++ [Pr.mk br w.nextPrNumber ti bo])
              (acts ++ [ExtAction.prCreate w.nextPrNumber ti bo la]) := by
          unfold publishPhase
          rw [hq]
          simp [hl, he]
        rw [heq, autoMergePhase_eq] at h
        injection h with hr ha hp
        injection hr with e1 e2 e3 e4
        refine ⟨e1.symm, e2.symm, e3.symm, ⟨_, by rw [← ha, List.append_assoc]⟩, ?_⟩
        exact Or.inr ⟨rfl, hp.symm⟩
      · simp only [Bool.not_eq_true] at he
        have heq : publishPhase br ti bo la w st acts = ⟨.publishCreateFailed, acts, st⟩ := by
          unfold publishPhase
          rw [hq]
          simp [hl, he]
        rw [heq] at h
        injection h with hr
        exact absurd hr (by simp)
  · simp only [Bool.not_eq_true] at hl
    have heq : publishPhase br ti bo la w st acts = ⟨.prListFailed, acts, st⟩ := by
      unfold publishPhase
      simp [hl]
    rw [heq] at h
    injection h with hr
    exact absurd hr (by simp)

theorem commitPhase_success_inv {t : UpdateType} {name br ti bo : String} {la : List String}
    {w : World} {st : List Pr} {b t2 b2 : String} {p : Option Nat}
    {A : List ExtAction} {P : List Pr}
    (h : commitPhase t name br ti bo la w st = ⟨.success b t2 b2 p, A, P⟩) :
    b = br ∧ t2 = ti ∧ b2 = bo ∧ ExtAction.gitPush br ∈ A ∧
    ((∃ n, ghPrNumberForBranch st br = some n ∧ P = editPr st n ti bo) ∨
     (ghPrNumberForBranch st br = none ∧ P = st ++ [Pr.mk br w.nextPrNumber ti bo])) := by
  by_cases h1 : w.switchOk = true
  · by_cases h2 : w.addOk = true
    · by_cases h3 : w.stagedNonempty = true
      · by_cases h4 : w.commitOk = true
        · by_cases h5 : w.pushOk = true
          · have heq : commitPhase t name br ti bo la w st =
                publishPhase br ti bo la w st
                  (([ExtAction.gitSwitch br] ++ [ExtAction.gitAdd (addPathsFor t name)] ++
                    [ExtAction.gitCommit ti]) ++ [ExtAction.gitPush br]) := by
              unfold commitPhase
              simp [h1, h2, h3, h4, h5]
            rw [heq] at h
            obtain ⟨e1, e2, e3, ⟨ext, hext⟩, hst⟩ := publishPhase_success_inv h
            refine ⟨e1, e2, e3, ?_, hst⟩
            rw [hext]
            simp
          · simp only [Bool.not_eq_true] at h5
            have heq : (commitPhase t name br ti bo la w st).result = .pushFailed := by
              unfold commitPhase
              simp [h1, h2, h3, h4, h5]
            rw [h] at heq
            exact absurd heq (by simp)
        · simp only [Bool.not_eq_true] at h4
          have heq : (commitPhase t name br ti bo la w st).result = .commitFailed := by
            unfold commitPhase
            simp [h1, h2, h3, h4]
          rw [h] at heq
          exact absurd heq (by simp)
      · simp only [Bool.not_eq_true] at h3
        have heq : (commitPhase t name br ti bo la w st).result = .nothingStaged := by
          unfold commitPhase
          simp [h1, h2, h3]
        rw [h] at heq
        exact absurd heq (by simp)
    · simp only [Bool.not_eq_true] at h2
      have heq : (commitPhase t name br ti bo la w st).result = .addFailed := by
        unfold commitPhase
        simp [h1, h2]
      rw [h] at heq
      exact absurd heq (by simp)
  · simp only [Bool.not_eq_true] at h1
    have heq : (commitPhase t name br ti bo la w st).result = .switchFailed := by
      unfold commitPhase
      simp [h1]
    rw [h] at heq
    exact absurd heq (by simp)

theorem runPipeline_success_inv {t : UpdateType} {name cv : String} {w : World}
    {store : List Pr} {b ti bo : String} {p : Option Nat} {A : List ExtAction} {P : List Pr}
    (h : runPipeline t name cv w store = ⟨.success b ti bo p, A, P⟩) :
    b = branchName t name ∧ ExtAction.gitPush (branchName t name) ∈ A ∧
    ((∃ n, ghPrNumberForBranch store (branchName t name) = some n ∧
        P = editPr store n ti bo) ∨
     (ghPrNumberForBranch store (branchName t name) = none ∧
      P = store ++ [Pr.mk (branchName t name) w.nextPrNumber ti bo])) := by
  simp only [runPipeline] at h
  split at h
  · simp at h
  · split at h
    · simp at h
    · split at h
      · simp at h
      · split at h
        · simp at h
        · split at h
          · simp at h
          · split at h
            · simp at h
            · split at h
              · simp at h
              · split at h
                · simp at h
                · split at h
                  · simp at h
                  · split at h
                    · simp at h
                    · split at h
                      · simp at h
                      · obtain ⟨e1, e2, e3, hpush, hst⟩ := commitPhase_success_inv h
                        refine ⟨e1, hpush, ?_⟩
                        rw [e2, e3]
                        exact hst

theorem runPipeline_eq_of_guards {t : UpdateType} {name cv : String} {w : World}
    {store : List Pr}
    (h1 : w.ghToken ≠ "") (h2 : porcelainDirty w.tree0 = false) (h3 : w.updaterOk = true)
    (h4 : w.tree1.changed ≠ []) (h5 : w.docsOk = true) (h6 : w.fmtOk = true)
    (h7 : w.tree3.changed ≠ []) :
    runPipeline t name cv w store =
      (match resolveVersion t name w with
       | .error e => ⟨.versionError e, [], store⟩
       | .ok newVersion =>
         if !w.validationOk then ⟨.validationFailed, [], store⟩
         else if (enumerateChanges w.tree3).isEmpty then ⟨.emptyChanges, [], store⟩
         else
           match (enumerateChanges w.tree3).find? (fun f => !(isAllowedChange t name f)) with
           | some f => ⟨.scopeViolation f, [], store⟩
           | none =>
             commitPhase t name (branchName t name) (prTitle t name cv newVersion)
               (prBody t name cv newVersion) (splitLabels w.prLabels) w store) := by
  simp only [runPipeline]
  rw [if_neg h1, if_neg (by simp [h2]), if_neg (by simp [h3]),
    if_neg (by simp [List.isEmpty_iff, h4]), if_neg (by simp [h5]), if_neg (by simp [h6]),
    if_neg (by simp [List.isEmpty_iff, h7])]

theorem mem_trimLines {f : String} {ls : List String} (hf : f ∈ ls) (ht : jsTrim f = f)
    (hne : f ≠ "") : f ∈ trimLines ls := by
  unfold trimLines
  refine List.mem_filter.mpr ⟨List.mem_map.mpr ⟨f, hf, ht⟩, by simp [hne]⟩

theorem mem_jsDedupGo : ∀ (seen l : List String) (x : String),
    x ∈ jsDedupGo seen l ↔ x ∈ l ∧ x ∉ seen
  | _, [], x => by simp [jsDedupGo]
  | seen, y :: ys, x => by
    by_cases hy : y ∈ seen
    · rw [show jsDedupGo seen (y :: ys) = jsDedupGo seen ys from by simp [jsDedupGo, hy]]
      rw [mem_jsDedupGo seen ys x]
      constructor
      · exact fun ⟨ha, hb⟩ => ⟨List.mem_cons_of_mem y ha, hb⟩
      · rintro ⟨ha, hb⟩
        rcases List.mem_cons.mp ha with rfl | ha
        · exact absurd hy hb
        · exact ⟨ha, hb⟩
    · rw [show jsDedupGo seen (y :: ys) = y :: jsDedupGo (y :: seen) ys from by
        simp [jsDedupGo, hy]]
      rw [List.mem_cons, mem_jsDedupGo (y :: seen) ys x]
      constructor
      · rintro (rfl | ⟨ha, hb⟩)
        · exact ⟨List.mem_cons_self x ys, hy⟩
        · exact ⟨List.mem_cons_of_mem y ha, fun hc => hb (List.mem_cons_of_mem y hc)⟩
      · rintro ⟨ha, hb⟩
        rcases List.mem_cons.mp ha with rfl | ha
        · exact Or.inl rfl
        · by_cases hxy : x = y
          · exact Or.inl hxy
          · exact Or.inr ⟨ha, by simp [List.mem_cons, hxy, hb]⟩

theorem mem_jsDedup {x : String} {l : List String} : x ∈ jsDedup l ↔ x ∈ l := by
  unfold jsDedup
  rw [mem_jsDedupGo]
  simp

theorem mem_enumerateChanges_of_untracked {tr : WorkTree} {f : String}
    (hf : f ∈ tr.untracked) (ht : jsTrim f = f) (hne : f ≠ "") :
    f ∈ enumerateChanges tr := by
  unfold enumerateChanges jsSortStrs
  rw [List.mem_insertionSort, mem_jsDedup]
  exact List.mem_append_right _ (mem_trimLines hf ht hne)

/-- Claim C10: an updater that modifies no tracked file but only creates
untracked files makes the first diff check (`git diff --quiet`, tracked
modifications only) report no changes, so the run terminates successfully as
the "no changes detected" no-op — no validation, commit or publish, the
proposal store untouched; yet the same untracked files make the porcelain
clean-tree precondition fail before a run, and are part of the scope-check
enumeration. -/
theorem claim_C10 :
    (∀ (t : UpdateType) (name cv : String) (w : World) (store : List Pr),
      w.ghToken ≠ "" → porcelainDirty w.tree0 = false → w.updaterOk = true →
      w.tree1.changed = [] →
      runPipeline t name cv w store = ⟨.noChanges, [], store⟩) ∧
    (∀ tr : WorkTree, tr.untracked ≠ [] → porcelainDirty tr = true) ∧
    (∀ (tr : WorkTree) (f : String), f ∈ tr.untracked → jsTrim f = f → f ≠ "" →
      f ∈ enumerateChanges tr) := by
  refine ⟨?_, ?_, fun tr f hf ht hne => mem_enumerateChanges_of_untracked hf ht hne⟩
  · intro t name cv w store h1 h2 h3 h4
    simp only [runPipeline]
    rw [if_neg h1, if_neg (by simp [h2]), if_neg (by simp [h3]),
      if_pos (by simp [List.isEmpty_iff, h4])]
  · intro tr h
    unfold porcelainDirty
    simp [List.isEmpty_iff, h]

/-- Witness for C10: a run whose updater only creates
`packages/foo/new-file` ends as the no-op, though the same file makes the
porcelain dirty and shows up in the enumeration. -/
theorem claim_C10_witness :
    runPipeline .package "foo" "1.2.0" wUntrackedOnly [] = ⟨.noChanges, [], []⟩ ∧
    porcelainDirty wUntrackedOnly.tree1 = true ∧
    "packages/foo/new-file" ∈ enumerateChanges wUntrackedOnly.tree1 :=
  ⟨claim_C10.1 .package "foo" "1.2.0" wUntrackedOnly [] (by decide) (by decide) (by decide)
      (by decide),
    claim_C10.2.1 wUntrackedOnly.tree1 (by decide),
    claim_C10.2.2 wUntrackedOnly.tree1 "packages/foo/new-file" (by decide) (by decide)
      (by decide)⟩

/-- Claim C2: when the post-validation enumeration of changed and untracked
paths contains a path outside the kind's allow-list, the run ends with a
scope violation naming an offending path, with no commit-phase action at all
(no switch, add, commit, push, and no proposal created or edited) and the
proposal store untouched. -/
theorem claim_C2 :
    ∀ (t : UpdateType) (name cv : String) (w : World) (store : List Pr),
      w.ghToken ≠ "" → porcelainDirty w.tree0 = false → w.updaterOk = true →
      w.tree1.changed ≠ [] → w.docsOk = true → w.fmtOk = true → w.tree3.changed ≠ [] →
      (∃ v, resolveVersion t name w = .ok v) → w.validationOk = true →
      (∃ f ∈ enumerateChanges w.tree3, isAllowedChange t name f = false) →
      ∃ f, runPipeline t name cv w store = ⟨.scopeViolation f, [], store⟩ ∧
        f ∈ enumerateChanges w.tree3 ∧ isAllowedChange t name f = false := by
  intro t name cv w store h1 h2 h3 h4 h5 h6 h7 hv h9 hbad
  obtain ⟨v, hv⟩ := hv
  obtain ⟨g, hg, hgbad⟩ := hbad
  rw [runPipeline_eq_of_guards h1 h2 h3 h4 h5 h6 h7, hv]
  dsimp only
  rw [if_neg (by simp [h9])]
  have hne : enumerateChanges w.tree3 ≠ [] := by
    intro he
    rw [he] at hg
    exact absurd hg (List.not_mem_nil g)
  rw [if_neg (by simp [List.isEmpty_iff, hne])]
  have hfind : ((enumerateChanges w.tree3).find? (fun f => !(isAllowedChange t name f))).isSome := by
    rw [List.find?_isSome]
    exact ⟨g, hg, by simp [hgbad]⟩
  obtain ⟨f0, hf0⟩ := Option.isSome_iff_exists.mp hfind
  rw [hf0]
  refine ⟨f0, rfl, List.mem_of_find?_eq_some hf0, ?_⟩
  have := List.find?_some hf0
  simpa using this

/-- Witness for C2: a package run for `foo` that also touched `flake.nix`
aborts with the scope violation naming `flake.nix`, performing no action. -/
theorem claim_C2_witness :
    ∃ f, runPipeline .package "foo" "1.2.0" wScope [] = ⟨.scopeViolation f, [], []⟩ ∧
      f ∈ enumerateChanges wScope.tree3 ∧ isAllowedChange .package "foo" f = false :=
  claim_C2 .package "foo" "1.2.0" wScope [] (by decide) (by decide) (by decide) (by decide)
    (by decide) (by decide) (by decide) ⟨"1.3.0", rfl⟩ (by decide)
    ⟨"flake.nix", by decide, by decide⟩

/-- Claim C1, counterexample: a successful pinned-reference (flake input) run
commits and publishes under `update/flake-input/<name>`, not the claimed
`update/pinned/<name>`. -/
theorem claim_C1_counterexample :
    (runPipeline .flakeInput "nixpkgs" "aaaaaaaa" wFlakeOk []).result =
      .success "update/flake-input/nixpkgs" "flake.lock: Update nixpkgs"
        ("This PR updates the flake input `nixpkgs`.\n\n- nixpkgs: `aaaaaaaa` → `01234567`")
        (some 7) ∧
    ExtAction.gitPush "update/flake-input/nixpkgs" ∈
      (runPipeline .flakeInput "nixpkgs" "aaaaaaaa" wFlakeOk []).actions ∧
    ("update/flake-input/nixpkgs" : String) ≠ "update/pinned/nixpkgs" := by decide

/-- Claim C1, amended: the branch a successful run commits to and publishes
under is the pure function `branchName` of the item's kind and name alone —
`update/<name>` for packages and `update/flake-input/<name>` for pinned
references — so re-running the pipeline for the same item targets the same
branch. -/
theorem claim_C1 :
    ∀ (t : UpdateType) (name cv : String) (w : World) (store : List Pr)
      (b ti bo : String) (p : Option Nat) (A : List ExtAction) (P : List Pr),
      runPipeline t name cv w store = ⟨.success b ti bo p, A, P⟩ →
      b = branchName t name ∧ ExtAction.gitPush (branchName t name) ∈ A ∧
      branchName .package name = "update/" ++ name ∧
      branchName .flakeInput name = "update/flake-input/" ++ name := by
  intro t name cv w store b ti bo p A P h
  obtain ⟨e1, hpush, _⟩ := runPipeline_success_inv h
  exact ⟨e1, hpush, rfl, rfl⟩

/-- Witness for the amended C1: the successful `foo` package run pushes to
`update/foo`, also spelt as the pure branch function. -/
theorem claim_C1_witness :
    "update/foo" = branchName .package "foo" ∧
    ExtAction.gitPush (branchName .package "foo") ∈
      (runPipeline .package "foo" "1.2.0" wBase []).actions ∧
    branchName .package "foo" = "update/" ++ "foo" ∧
    branchName .flakeInput "foo" = "update/flake-input/" ++ "foo" :=
  claim_C1 .package "foo" "1.2.0" wBase []
    "update/foo" "foo: 1.2.0 -> 1.3.0" "Automated update of foo from 1.2.0 to 1.3.0." (some 7)
    (runPipeline .package "foo" "1.2.0" wBase []).actions
    (runPipeline .package "foo" "1.2.0" wBase []).prs
    (by decide)

/-- Claim C7, counterexample: version resolution for a pinned reference IS
fatal when the lock document is malformed — a `flake.lock` parsing to an
array fails `assertRecord` and aborts the run instead of continuing with
`"unknown"`. -/
theorem claim_C7_counterexample :
    runPipeline .flakeInput "nixpkgs" "aaaaaaaa" wBadLock [] =
      ⟨.versionError "flake.lock: expected object: expected object", [], []⟩ := by decide

/-- Claim C7, amended: package-kind version resolution is never fatal (a
failed or blank `nix eval` resolves to the sentinel `"unknown"`); for pinned
references a missing node resolves to `"unknown"`, but a lock document that
is not an object (or whose `nodes` field is not an object) throws and aborts
the run. -/
theorem claim_C7 :
    (∀ (name : String) (w : World), ∃ v, resolveVersion .package name w = .ok v) ∧
    (∀ (name : String) (w : World), w.nixEvalCode ≠ 0 →
      resolveVersion .package name w = .ok "unknown") ∧
    (∀ (name : String) (nf : List (String × Json)), nf.lookup name = none →
      readFlakeInputRev name (some (Json.obj [("nodes", Json.obj nf)])) = .ok "unknown") ∧
    (∀ (name : String) (xs : List Json),
      readFlakeInputRev name (some (Json.arr xs)) =
        .error "flake.lock: expected object: expected object") := by
  refine ⟨fun name w => ⟨_, rfl⟩, ?_, ?_, fun name xs => rfl⟩
  · intro name w h
    unfold resolveVersion nixEvalPackageVersion
    simp [h]
  · intro name nf h
    unfold readFlakeInputRev
    simp [List.lookup, h]

/-- Witness for the amended C7: a failed `nix eval` resolves to `"unknown"`,
and a lock document without the requested node resolves to `"unknown"`. -/
theorem claim_C7_witness :
    resolveVersion .package "foo" wEvalFail = .ok "unknown" ∧
    readFlakeInputRev "ghost" (some (Json.obj [("nodes", Json.obj [])])) = .ok "unknown" :=
  ⟨claim_C7.2.1 "foo" wEvalFail (by decide), claim_C7.2.2.1 "ghost" [] rfl⟩

theorem filter_editPr (st : List Pr) (n : Nat) (ti bo br : String) :
    (editPr st n ti bo).filter (fun p => p.branch = br) =
      (st.filter (fun p => p.branch = br)).map
        (fun p => if p.number = n then Pr.mk p.branch p.number ti bo else p) := by
  unfold editPr
  rw [List.filter_map]
  congr 1
  apply List.filter_congr
  intro x _
  by_cases hx : x.number = n <;> simp [hx]

theorem countPr_editPr (st : List Pr) (n : Nat) (ti bo br : String) :
    countPr (editPr st n ti bo) br = countPr st br := by
  unfold countPr
  rw [filter_editPr, List.length_map]

theorem countPr_pos_of_some {st : List Pr} {br : String} {n : Nat}
    (h : ghPrNumberForBranch st br = some n) : 1 ≤ countPr st br := by
  unfold ghPrNumberForBranch at h
  unfold countPr
  cases hf : st.filter (fun p => p.branch = br) with
  | nil =>
    rw [hf] at h
    simp at h
  | cons q qs => simp

theorem countPr_zero_of_none {st : List Pr} {br : String}
    (h : ghPrNumberForBranch st br = none) : countPr st br = 0 := by
  unfold ghPrNumberForBranch at h
  unfold countPr
  cases hf : st.filter (fun p => p.branch = br) with
  | nil => simp
  | cons q qs =>
    rw [hf] at h
    simp at h

theorem countPr_append_one (st : List Pr) (br : String) (num : Nat) (ti bo : String) :
    countPr (st ++ [Pr.mk br num ti bo]) br = countPr st br + 1 := by
  unfold countPr
  rw [List.filter_append]
  simp

theorem editPr_unique_title {st : List Pr} {br : String} {n : Nat} {ti bo : String}
    (hq : ghPrNumberForBranch st br = some n) (hc : countPr st br = 1) :
    ∀ pr ∈ editPr st n ti bo, pr.branch = br → pr.title = ti ∧ pr.body = bo := by
  unfold ghPrNumberForBranch at hq
  unfold countPr at hc
  cases hf : st.filter (fun p => p.branch = br) with
  | nil =>
    rw [hf] at hq
    simp at hq
  | cons q qs =>
    rw [hf] at hq hc
    have hn : q.number = n := by simpa using hq
    have hqs : qs = [] := by simpa using hc
    subst hqs
    intro pr hpr hbr
    obtain ⟨x, hx, hxe⟩ := List.mem_map.mp hpr
    have hxbr : x.branch = br := by
      by_cases hxn : x.number = n
      · rw [← hbr, ← hxe]
        simp [hxn]
      · rw [← hbr, ← hxe]
        simp [hxn]
    have hxf : x ∈ st.filter (fun p => p.branch = br) :=
      List.mem_filter.mpr ⟨hx, by simp [hxbr]⟩
    rw [hf] at hxf
    have hxq : x = q := by simpa using hxf
    subst hxq
    rw [← hxe]
    simp [hn]

/-- Claim C6: publish is create-or-update.  Starting from a store with at
most one open proposal for the item's branch, a successful run leaves exactly
one open proposal for it, and a second successful run still leaves exactly
one, now carrying the second run's title and body. -/
theorem claim_C6 :
    ∀ (t : UpdateType) (name cv1 cv2 : String) (w1 w2 : World) (store0 : List Pr)
      (b1 ti1 bo1 b2 ti2 bo2 : String) (p1 p2 : Option Nat),
      countPr store0 (branchName t name) ≤ 1 →
      (runPipeline t name cv1 w1 store0).result = .success b1 ti1 bo1 p1 →
      (runPipeline t name cv2 w2 (runPipeline t name cv1 w1 store0).prs).result =
        .success b2 ti2 bo2 p2 →
      countPr (runPipeline t name cv1 w1 store0).prs (branchName t name) = 1 ∧
      countPr (runPipeline t name cv2 w2 (runPipeline t name cv1 w1 store0).prs).prs
        (branchName t name) = 1 ∧
      ∀ pr ∈ (runPipeline t name cv2 w2 (runPipeline t name cv1 w1 store0).prs).prs,
        pr.branch = branchName t name → pr.title = ti2 ∧ pr.body = bo2 := by
  intro t name cv1 cv2 w1 w2 store0 b1 ti1 bo1 b2 ti2 bo2 p1 p2 hcount hres1 hres2
  have h1full : runPipeline t name cv1 w1 store0 =
      ⟨.success b1 ti1 bo1 p1, (runPipeline t name cv1 w1 store0).actions,
       (runPipeline t name cv1 w1 store0).prs⟩ := by
    rw [← hres1]
  obtain ⟨_, _, hst1⟩ := runPipeline_success_inv h1full
  have hcount1 : countPr (runPipeline t name cv1 w1 store0).prs (branchName t name) = 1 := by
    rcases hst1 with ⟨n, hq, hP⟩ | ⟨hq, hP⟩
    · rw [hP, countPr_editPr]
      have := countPr_pos_of_some hq
      omega
    · rw [hP, countPr_append_one, countPr_zero_of_none hq]
  have h2full : runPipeline t name cv2 w2 (runPipeline t name cv1 w1 store0).prs =
      ⟨.success b2 ti2 bo2 p2,
       (runPipeline t name cv2 w2 (runPipeline t name cv1 w1 store0).prs).actions,
       (runPipeline t name cv2 w2 (runPipeline t name cv1 w1 store0).prs).prs⟩ := by
    rw [← hres2]
  obtain ⟨_, _, hst2⟩ := runPipeline_success_inv h2full
  rcases hst2 with ⟨n, hq, hP⟩ | ⟨hq, hP⟩
  · refine ⟨hcount1, ?_, ?_⟩
    · rw [hP, countPr_editPr]
      exact hcount1
    · rw [hP]
      exact editPr_unique_title hq hcount1
  · exfalso
    have := countPr_zero_of_none hq
    omega

/-- Witness for C6: the `foo` run against an empty store creates proposal 7
on `update/foo`; a second run (resolving 1.4.0) edits it in place, leaving
exactly one proposal with the second title and body. -/
theorem claim_C6_witness :
    countPr (runPipeline .package "foo" "1.2.0" wBase []).prs (branchName .package "foo") = 1 ∧
    countPr (runPipeline .package "foo" "1.2.0" wSecond
        (runPipeline .package "foo" "1.2.0" wBase []).prs).prs (branchName .package "foo") = 1 ∧
    ∀ pr ∈ (runPipeline .package "foo" "1.2.0" wSecond
        (runPipeline .package "foo" "1.2.0" wBase []).prs).prs,
      pr.branch = branchName .package "foo" →
      pr.title = "foo: 1.2.0 -> 1.4.0" ∧
      pr.body = "Automated update of foo from 1.2.0 to 1.4.0." :=
  claim_C6 .package "foo" "1.2.0" "1.2.0" wBase wSecond []
    "update/foo" "foo: 1.2.0 -> 1.3.0" "Automated update of foo from 1.2.0 to 1.3.0."
    "update/foo" "foo: 1.2.0 -> 1.4.0" "Automated update of foo from 1.2.0 to 1.4.0."
    (some 7) (some 7) (by decide) (by decide) (by decide)

theorem lookup_eq_none_keys : ∀ (l : List (String × Option String)) (a : String),
    a ∉ l.map Prod.fst → l.lookup a = none
  | [], _, _ => rfl
  | (k, v) :: rest, a, h => by
    have hk : a ≠ k := fun he => h (by simp [he])
    have hr : a ∉ rest.map Prod.fst := fun hm => h (by simp [hm])
    simp only [List.lookup, beq_eq_false_iff_ne.mpr hk]
    exact lookup_eq_none_keys rest a hr

theorem mem_keys_dedupByKeyGo : ∀ (seen : List String) (l : List (String × Option String))
    (x : String), x ∈ (dedupByKeyGo seen l).map Prod.fst → x ∈ l.map Prod.fst
  | _, [], _, h => by simp [dedupByKeyGo] at h
  | seen, y :: ys, x, h => by
    by_cases hy : y.1 ∈ seen
    · rw [show dedupByKeyGo seen (y :: ys) = dedupByKeyGo seen ys from by
        simp [dedupByKeyGo, hy]] at h
      exact List.mem_cons_of_mem _ (mem_keys_dedupByKeyGo seen ys x h)
    · rw [show dedupByKeyGo seen (y :: ys) = y :: dedupByKeyGo (y.1 :: seen) ys from by
        simp [dedupByKeyGo, hy]] at h
      rcases List.mem_cons.mp h with he | h
      · exact List.mem_cons.mpr (Or.inl he)
      · exact List.mem_cons_of_mem _ (mem_keys_dedupByKeyGo (y.1 :: seen) ys x h)

theorem evalPackagesExpr_lookup_none {pf : String} {pkgs : List (String × Option String)}
    {p : String} (hnone : (pkgs.lookup p).join = none) :
    (evalPackagesExpr pkgs (some (splitWsF pf))).lookup p = none := by
  apply lookup_eq_none_keys
  intro hmem
  unfold evalPackagesExpr dedupByKey at hmem
  have hmem2 := mem_keys_dedupByKeyGo _ _ _ hmem
  obtain ⟨pair, hpair, hfst⟩ := List.mem_map.mp hmem2
  obtain ⟨f, _, hgf⟩ := List.mem_filterMap.mp hpair
  cases hl : pkgs.lookup f with
  | none => rw [hl] at hgf; simp at hgf
  | some ov =>
    cases ov with
    | none => rw [hl] at hgf; simp at hgf
    | some v =>
      rw [hl] at hgf
      simp only [Option.some.injEq] at hgf
      have hf : f = p := by rw [← hfst, ← hgf]
      rw [hf] at hl
      rw [hl] at hnone
      simp at hnone

theorem contains_eq_false_of_lookup_none {versions : List (String × Option String)}
    {p : String} (h : versions.lookup p = none) :
    (versions.map Prod.fst).contains p = false := by
  cases hc : (versions.map Prod.fst).contains p
  · rfl
  · exfalso
    have hmem : p ∈ versions.map Prod.fst := by
      have := List.elem_iff.mp hc
      exact this
    obtain ⟨pair, hpair, hfst⟩ := List.mem_map.mp hmem
    have : versions.lookup p ≠ none := by
      subst hfst
      clear hc hmem h
      induction versions with
      | nil => simp at hpair
      | cons q qs ih =>
        rcases List.mem_cons.mp hpair with rfl | hmem2
        · simp [List.lookup]
        · by_cases he : pair.1 = q.1
          · simp [List.lookup, he]
          · simp only [List.lookup, beq_eq_false_iff_ne.mpr he]
            exact ih hmem2
    exact this h

theorem discoverPackages_excludes {flt : Option String}
    {versions : List (String × Option String)} {p : String}
    (h : versions.lookup p = none ∨ versions.lookup p = some none) :
    ∀ it ∈ (discoverPackages flt (.ok versions)).1, it.name ≠ p := by
  intro it hit
  unfold discoverPackages at hit
  simp only at hit
  obtain ⟨n, _, hgn⟩ := List.mem_filterMap.mp hit
  cases hl : versions.lookup n with
  | none => rw [hl] at hgn; simp at hgn
  | some ov =>
    cases ov with
    | none => rw [hl] at hgn; simp at hgn
    | some v =>
      rw [hl] at hgn
      simp only [Option.some.injEq] at hgn
      have hn : it.name = n := by rw [← hgn]
      rw [hn]
      intro he
      rw [he] at hl
      rcases h with h | h <;> rw [h] at hl <;> simp at hl

theorem discoverPackages_warns {pf : String} {versions : List (String × Option String)}
    {p : String} (hp : p ∈ splitWsF pf) (h : versions.lookup p = none) :
    ("Warning: Package " ++ p ++ " not found or has no version") ∈
      (discoverPackages (some pf) (.ok versions)).2 := by
  unfold discoverPackages
  simp only
  apply List.mem_append_right
  apply List.mem_filterMap.mpr
  refine ⟨p, hp, ?_⟩
  rw [contains_eq_false_of_lookup_none h]
  simp

theorem jsLt_str_total {a b : String} (h : jsLtStr a b = false) (h' : jsLtStr b a = false) :
    a = b := by
  unfold jsLtStr at h h'
  have h2 := jsLt_total h h'
  cases a
  cases b
  exact congrArg String.mk h2

theorem sorted_jsSortStrs (l : List String) : (jsSortStrs l).Sorted jsLeStr := by
  haveI hto : IsTotal String jsLeStr := by
    constructor
    intro a b
    unfold jsLeStr
    cases hab : jsLtStr a b
    · right
      cases hba : jsLtStr b a
      · rfl
      · rfl
    · left
      exact jsLt_asymm hab
  haveI htr : IsTrans String jsLeStr := by
    constructor
    intro a b c hab hbc
    unfold jsLeStr at hab hbc ⊢
    cases hca : jsLtStr c a
    · rfl
    · exfalso
      cases hbc2 : jsLtStr b c
      · have hbc3 : b = c := jsLt_str_total hbc2 hbc
        rw [hbc3] at hab
        rw [hab] at hca
        simp at hca
      · have : jsLtStr b a = true := jsLt_trans hbc2 hca
        rw [this] at hab
        simp at hab
  exact List.sorted_insertionSort jsLeStr l

theorem pairwise_lt_jsSortStrs {l : List String} (hnd : l.Nodup) :
    (jsSortStrs l).Pairwise (fun a b => jsLtStr a b = true) := by
  have hs := sorted_jsSortStrs l
  have hnd2 : (jsSortStrs l).Nodup :=
    (List.Perm.nodup_iff (List.perm_insertionSort jsLeStr l)).mpr hnd
  have hcomb := List.Pairwise.and hs hnd2
  apply hcomb.imp
  intro a b hab
  obtain ⟨hle, hne⟩ := hab
  unfold jsLeStr at hle
  cases hab2 : jsLtStr a b
  · exact absurd (jsLt_str_total hab2 hle) hne
  · rfl

theorem discoverPackages_items_sorted (flt : Option String)
    (versions : List (String × Option String)) (hnd : (versions.map Prod.fst).Nodup) :
    List.Pairwise (fun x y => jsLtStr x.name y.name = true)
      (discoverPackages flt (.ok versions)).1 := by
  unfold discoverPackages
  simp only
  rw [List.pairwise_filterMap]
  have hp := pairwise_lt_jsSortStrs hnd
  unfold jsSortStrs at hp
  apply hp.imp
  intro a b hab x hx y hy
  have hxa : x.name = a := by
    cases hl : versions.lookup a with
    | none => rw [hl] at hx; simp at hx
    | some ov =>
      cases ov with
      | none => rw [hl] at hx; simp at hx
      | some v =>
        rw [hl] at hx
        simp only [Option.mem_def, Option.some.injEq] at hx
        rw [← hx]
    
  have hyb : y.name = b := by
    cases hl : versions.lookup b with
    | none => rw [hl] at hy; simp at hy
    | some ov =>
      cases ov with
      | none => rw [hl] at hy; simp at hy
      | some v =>
        rw [hl] at hy
        simp only [Option.mem_def, Option.some.injEq] at hy
        rw [← hy]
  rw [hxa, hyb]
  exact hab

theorem discoverFlakeInputsGo_names_sublist : ∀ (nodes : Json) (names : List String)
    (items : List MatrixItem), discoverFlakeInputsGo nodes names = .ok items →
    (items.map MatrixItem.name).Sublist names
  | _, [], items, h => by
    simp only [discoverFlakeInputsGo] at h
    cases h
    simp
  | nodes, n :: rest, items, h => by
    simp only [discoverFlakeInputsGo] at h
    cases hi : jsIndexStr nodes n with
    | none =>
      rw [hi] at h
      exact (discoverFlakeInputsGo_names_sublist nodes rest items h).cons n
    | some nodeJ =>
      rw [hi] at h
      simp only at h
      by_cases hf : jsFalsy (some nodeJ) = true
      · rw [if_pos hf] at h
        exact (discoverFlakeInputsGo_names_sublist nodes rest items h).cons n
      · rw [if_neg hf] at h
        cases hr : lockedRev nodeJ with
        | error e => rw [hr] at h; cases h
        | ok rev =>
          rw [hr] at h
          cases hg : discoverFlakeInputsGo nodes rest with
          | error e => rw [hg] at h; cases h
          | ok tail =>
            rw [hg] at h
            cases h
            simpa using (discoverFlakeInputsGo_names_sublist nodes rest tail hg).cons₂ n

theorem discoverFlakeInputs_unfiltered_sorted (nf : List (String × Json))
    (hnd : (nf.map Prod.fst).Nodup) (items : List MatrixItem)
    (h : discoverFlakeInputs none (some (some (Json.obj [("nodes", Json.obj nf)]))) =
      .ok items) :
    List.Pairwise (fun x y => jsLtStr x.name y.name = true) items := by
  have hform : discoverFlakeInputs none (some (some (Json.obj [("nodes", Json.obj nf)]))) =
      discoverFlakeInputsGo (Json.obj nf)
        (jsSortStrs ((nf.map Prod.fst).filter (fun k => k ≠ "root"))) := rfl
  rw [hform] at h
  have hsub := discoverFlakeInputsGo_names_sublist _ _ _ h
  have hnames : ((nf.map Prod.fst).filter (fun k => k ≠ "root")).Nodup := hnd.filter _
  have hp := pairwise_lt_jsSortStrs hnames
  unfold jsSortStrs at hp
  have := List.Pairwise.sublist hsub hp
  exact (List.pairwise_map.mp this)

/-- Claim C8, counterexample: the emitted item names of a discovery run are
NOT always strictly ascending — a pinned-reference filter is processed in its
own order, so filtering for `"b a"` emits `b` before `a`. -/
theorem claim_C8_counterexample :
    discoverAll "" "b a" [] true "" (some (some lockNodesAB)) =
      .ok ([MatrixItem.mk .flakeInput "b" "bbbbbbbb",
            MatrixItem.mk .flakeInput "a" "aaaaaaaa"], true) ∧
    jsLtStr "b" "a" = false ∧ ("b" : String) ≠ "a" :=
  ⟨rfl, by decide, by decide⟩

/-- Claim C8, amended: filtering package discovery for a name absent from the
index (or lacking a resolvable version) logs a warning — discovery stays a
total function, nothing is thrown — and the name is excluded from the
result; unfiltered package discovery excludes any name whose version is null;
package item names are strictly ascending (the index keys being unique), and
so are unfiltered pinned-reference item names — but a filtered
pinned-reference run emits items in the filter's own order, which need not be
ascending (see the counterexample). -/
theorem claim_C8 :
    (∀ (pf : String) (pkgs : List (String × Option String)) (p : String),
      p ∈ splitWsF pf → (pkgs.lookup p).join = none →
      (∀ it ∈ (discoverPackagesRun (some pf) pkgs true "").1, it.name ≠ p) ∧
      ("Warning: Package " ++ p ++ " not found or has no version") ∈
        (discoverPackagesRun (some pf) pkgs true "").2) ∧
    (∀ (pkgs : List (String × Option String)) (p : String),
      pkgs.lookup p = some none →
      ∀ it ∈ (discoverPackagesRun none pkgs true "").1, it.name ≠ p) ∧
    (∀ (flt : Option String) (versions : List (String × Option String)),
      (versions.map Prod.fst).Nodup →
      List.Pairwise (fun x y => jsLtStr x.name y.name = true)
        (discoverPackages flt (.ok versions)).1) ∧
    (∀ (nf : List (String × Json)) (items : List MatrixItem),
      (nf.map Prod.fst).Nodup →
      discoverFlakeInputs none (some (some (Json.obj [("nodes", Json.obj nf)]))) =
        .ok items →
      List.Pairwise (fun x y => jsLtStr x.name y.name = true) items) := by
  refine ⟨?_, ?_, discoverPackages_items_sorted,
    fun nf items hnd h => discoverFlakeInputs_unfiltered_sorted nf hnd items h⟩
  · intro pf pkgs p hp hnone
    have hrun : discoverPackagesRun (some pf) pkgs true "" =
        discoverPackages (some pf) (.ok (evalPackagesExpr pkgs (some (splitWsF pf)))) := rfl
    have hvl := @evalPackagesExpr_lookup_none pf pkgs p hnone
    rw [hrun]
    exact ⟨discoverPackages_excludes (Or.inl hvl), discoverPackages_warns hp hvl⟩
  · intro pkgs p h
    have hrun : discoverPackagesRun none pkgs true "" =
        discoverPackages none (.ok pkgs) := rfl
    rw [hrun]
    exact discoverPackages_excludes (Or.inr h)

/-- Witness for the amended C8: filtering for the absent `ghost` warns and
excludes it; unfiltered pinned discovery of the `a`/`b` lock emits them in
ascending order. -/
theorem claim_C8_witness :
    ((∀ it ∈ (discoverPackagesRun (some "ghost foo") [("foo", some "1.2.0")] true "").1,
        it.name ≠ "ghost") ∧
      ("Warning: Package " ++ "ghost" ++ " not found or has no version") ∈
        (discoverPackagesRun (some "ghost foo") [("foo", some "1.2.0")] true "").2) ∧
    List.Pairwise (fun x y => jsLtStr x.name y.name = true)
      [MatrixItem.mk .flakeInput "a" "aaaaaaaa", MatrixItem.mk .flakeInput "b" "bbbbbbbb"] :=
  ⟨claim_C8.1 "ghost foo" [("foo", some "1.2.0")] "ghost" (by decide) (by decide),
    claim_C8.2.2.2
      [("a", Json.obj [("locked", Json.obj [("rev", Json.str "aaaaaaaaaaaa")])]),
       ("b", Json.obj [("locked", Json.obj [("rev", Json.str "bbbbbbbbbbbb")])])]
      [MatrixItem.mk .flakeInput "a" "aaaaaaaa", MatrixItem.mk .flakeInput "b" "bbbbbbbb"]
      (by decide) rfl⟩

/-- Claim C9: discovery degrades gracefully per kind — a failed package-index
evaluation is logged and yields an empty package item list, and a missing
lock-state document yields an empty pinned-reference item list without an
error. -/
theorem claim_C9 :
    (∀ (packagesFilter : Option String) (stderr : String),
      discoverPackages packagesFilter (.error stderr) =
        ([], ["Failed to evaluate packages:\n" ++ stderr])) ∧
    (∀ inputsFilter : Option String, discoverFlakeInputs inputsFilter none = .ok []) :=
  ⟨fun _ _ => rfl, fun _ => rfl⟩
